import Mathlib

/-!
Verification of the event-to-message rendering pipeline and message
lifecycle of `post_schedule.py`.

Python strings are embedded as `List Char` (`Str`); `len` is `List.length`,
concatenation is `++`.  Python's `str.strip` / `str.rstrip` are embedded as
`trim` / `rtrim` over an ASCII whitespace set.  Fallible code (the places
where the Python may raise) returns `Except Unit _`.  The regular
expressions of the source are fixed patterns; each is embedded as a
dedicated matcher function together with a generic scan-and-substitute /
scan-and-findall combinator that mirrors `re.sub` / `re.findall`
(leftmost, non-overlapping) for those patterns.  A `Nat` fuel argument
(initialised with the string length, an upper bound on the number of scan
steps) makes the scanners structurally recursive so that everything
computes by `decide` / `rfl`.
-/

set_option maxRecDepth 10000

abbrev Str := List Char

def strOf (s : String) : Str := s.data

/-- ASCII whitespace, the subset of Python's `str.strip` / `\s` set relevant
to this program's data. -/
def isWs (c : Char) : Bool :=
  c = ' ' || c = '\t' || c = '\n' || c = '\r' || c = '\x0b' || c = '\x0c'

/-- Python `s.lstrip()`. -/
def ltrim (s : Str) : Str := s.dropWhile isWs

/-- Python `s.rstrip()`. -/
def rtrim (s : Str) : Str := (s.reverse.dropWhile isWs).reverse

/-- Python `s.strip()`. -/
def trim (s : Str) : Str := ltrim (rtrim s)

/-- Python `s.rstrip(chars)`. -/
def rstripSet (s : Str) (cs : List Char) : Str :=
  (s.reverse.dropWhile (fun c => decide (c ∈ cs))).reverse

/-- Python `s.startswith(pat)`; first argument is the pattern. -/
def startsW : Str → Str → Bool
  | [], _ => true
  | _ :: _, [] => false
  | p :: ps, c :: cs => p = c && startsW ps cs

/-- Python `s.endswith(suf)`. -/
def endsW (s suf : Str) : Bool := startsW suf.reverse s.reverse

/-- Python `pat in s` (substring test). -/
def containsSub : Str → Str → Bool
  | s, pat =>
    startsW pat s ||
      match s with
      | [] => false
      | _ :: rest => containsSub rest pat

def lowerStr (s : Str) : Str := s.map Char.toLower

def upperStr (s : Str) : Str := s.map Char.toUpper

/-- Python `a or b` for strings (empty string is falsy). -/
def orDefault (a b : Str) : Str := if a = [] then b else a

/-- One scan step list for `s.replace(old, new)` (all occurrences,
left-to-right, non-overlapping; `old` is nonempty everywhere this program
calls it). -/
def replaceAllGo (pat rep : Str) : Nat → Str → Str
  | 0, s => s
  | _, [] => []
  | fuel + 1, c :: rest =>
    if pat ≠ [] ∧ startsW pat (c :: rest) then
      rep ++ replaceAllGo pat rep fuel ((c :: rest).drop pat.length)
    else
      c :: replaceAllGo pat rep fuel rest

/-- Python `s.replace(pat, rep)`. -/
def replaceAll (s pat rep : Str) : Str := replaceAllGo pat rep s.length s

def replace1Go (pat rep : Str) : Str → Str
  | [] => []
  | c :: rest =>
    if startsW pat (c :: rest) then rep ++ (c :: rest).drop pat.length
    else c :: replace1Go pat rep rest

/-- Python `s.replace(pat, rep, 1)` (first occurrence only; an empty
pattern inserts at the front, as in Python). -/
def replace1 (s pat rep : Str) : Str :=
  if pat = [] then rep ++ s else replace1Go pat rep s

/-- Python `str(n)` for a natural number. -/
def natStr (n : Nat) : Str := Nat.toDigits 10 n

/-! ### URL parsing (model of `urllib.parse.urlparse`)

Only the `scheme` and `netloc` components are consumed by the program.
`urlparse` raises `ValueError` on a netloc with unbalanced square
brackets ("Invalid IPv6 URL"); that is the `.error` case. -/

structure UrlParts where
  scheme : Str
  netloc : Str
deriving DecidableEq

def isSchemeChar (c : Char) : Bool :=
  c.isAlpha || c.isDigit || c = '+' || c = '-' || c = '.'

def urlparseE (url : Str) : Except Unit UrlParts :=
  -- lstrip C0-control-or-space, then remove tab/CR/LF, as CPython does
  let u := url.dropWhile (fun c => decide (c.toNat ≤ 32))
  let u := u.filter (fun c => c ≠ '\t' && c ≠ '\r' && c ≠ '\n')
  let p :=
    match u.findIdx? (fun c => c = ':') with
    | some i =>
      if 0 < i ∧ (u.take i).all isSchemeChar = true ∧
          (match u.head? with | some c => c.isAlpha | none => false) = true then
        (lowerStr (u.take i), u.drop (i + 1))
      else ([], u)
    | none => ([], u)
  if startsW (strOf "//") p.2 then
    let netloc := (p.2.drop 2).takeWhile (fun c => c ≠ '/' && c ≠ '?' && c ≠ '#')
    if (('[' ∈ netloc) ∧ (']' ∉ netloc)) ∨ ((']' ∈ netloc) ∧ ('[' ∉ netloc)) then
      .error ()
    else
      .ok ⟨p.1, netloc⟩
  else
    .ok ⟨p.1, []⟩

/-! ### Configuration constants of `post_schedule.py` -/

def SAFE_LIMIT : Nat := 1850

def BLOCKED_LINK_DOMAINS : List Str := [strOf "tel.meet", strOf "support.google.com"]

def BLOCKED_SCHEMES : List Str := [strOf "tel"]

/-- `short_domain` of the source: host with every `"www."` removed, or
`"link"` when the url cannot be parsed or the result is empty. -/
def short_domain (url : Str) : Str :=
  match urlparseE url with
  | .error _ => strOf "link"
  | .ok p =>
    let h := replaceAll p.netloc (strOf "www.") []
    if h = [] then strOf "link" else h

/-- `normalize_url` of the source: strip whitespace, then trailing
sentence punctuation. -/
def normalize_url (url : Str) : Str :=
  rstripSet (trim url) [')', '.', ',', ';', '\x22', '\x27']

/-- `is_blocked_url` of the source: the `try`/`except` around `urlparse`
becomes the `.error` branch returning `false`. -/
def is_blocked_url (url : Str) : Bool :=
  match urlparseE url with
  | .error _ => false
  | .ok p =>
    let scheme := lowerStr p.scheme
    let host := replaceAll (lowerStr p.netloc) (strOf "www.") []
    decide (scheme ∈ BLOCKED_SCHEMES) || decide (host ∈ BLOCKED_LINK_DOMAINS)

/-! ### Generic scanners for the fixed regular expressions

`regexSub m fuel s` mirrors `re.sub(pat, rep, s)` and `regexFindall`
mirrors `re.findall(pat, s)` for a pattern embedded as the matcher `m`:
the scan moves left to right, tries the matcher at every position, and on
a hit continues after the consumed text (non-overlapping).  Every matcher
below consumes at least one character on a hit, so fuel `s.length`
reproduces the unbounded scan. -/

def regexSub (m : Str → Option (Str × Str)) : Nat → Str → Str
  | 0, s => s
  | _, [] => []
  | fuel + 1, c :: rest =>
    match m (c :: rest) with
    | some (rep, after) => rep ++ regexSub m fuel after
    | none => c :: regexSub m fuel rest

def regexFindall {α : Type} (m : Str → Option (α × Str)) : Nat → Str → List α
  | 0, _ => []
  | _, [] => []
  | fuel + 1, c :: rest =>
    match m (c :: rest) with
    | some (a, after) => a :: regexFindall m fuel after
    | none => regexFindall m fuel rest

/-- Model of Python `html.unescape` (a stdlib collaborator): rewrite
`&name;` / `&#number;` escapes, restricted to the entities this feed can
contain; everything else, and in particular any text without `&`, passes
through unchanged. -/
def matchEntityAt (s : Str) : Option (Str × Str) :=
  match s with
  | '&' :: rest =>
    match List.findSome?
        (fun (pr : String × String) =>
          if startsW (strOf pr.1) rest then
            some (strOf pr.2, rest.drop (strOf pr.1).length)
          else none)
        [("amp;", "&"), ("lt;", "<"), ("gt;", ">"), ("quot;", "\x22"),
         ("apos;", "\x27"), ("nbsp;", " ")] with
    | some r => some r
    | none =>
      match rest with
      | '#' :: ds =>
        let digits := ds.takeWhile Char.isDigit
        match ds.drop digits.length with
        | ';' :: after =>
          if digits = [] then none
          else
            some ([Char.ofNat (digits.foldl (fun a c => a * 10 + (c.toNat - 48)) 0)],
              after)
        | _ => none
      | _ => none
  | _ => none

def unescapePy (s : Str) : Str := regexSub matchEntityAt s.length s

/-- Matcher for `<\s*br\s*/?\s*>` (IGNORECASE); replacement is a newline. -/
def matchBrAt (s : Str) : Option (Str × Str) :=
  match s with
  | '<' :: t =>
    let t1 := t.drop (t.takeWhile isWs).length
    match t1 with
    | b :: r :: t2 =>
      if b.toLower = 'b' ∧ r.toLower = 'r' then
        let t3 := t2.drop (t2.takeWhile isWs).length
        let t4 := match t3 with | '/' :: x => x | x => x
        let t5 := t4.drop (t4.takeWhile isWs).length
        match t5 with
        | '>' :: rest => some (['\n'], rest)
        | _ => none
      else none
    | _ => none
  | _ => none

def subBr (s : Str) : Str := regexSub matchBrAt s.length s

/-- Matcher for `</?\s*b\s*>` (IGNORECASE); replacement is empty. -/
def matchBoldAt (s : Str) : Option (Str × Str) :=
  match s with
  | '<' :: t =>
    let t1 := match t with | '/' :: x => x | x => x
    let t2 := t1.drop (t1.takeWhile isWs).length
    match t2 with
    | b :: t3 =>
      if b.toLower = 'b' then
        let t4 := t3.drop (t3.takeWhile isWs).length
        match t4 with
        | '>' :: rest => some ([], rest)
        | _ => none
      else none
    | _ => none
  | _ => none

def subBold (s : Str) : Str := regexSub matchBoldAt s.length s

/-- Matcher for `</\s*a\s*>` (IGNORECASE); replacement is empty. -/
def matchACloseAt (s : Str) : Option (Str × Str) :=
  match s with
  | '<' :: '/' :: t =>
    let t1 := t.drop (t.takeWhile isWs).length
    match t1 with
    | a :: t2 =>
      if a.toLower = 'a' then
        let t3 := t2.drop (t2.takeWhile isWs).length
        match t3 with
        | '>' :: rest => some ([], rest)
        | _ => none
      else none
    | _ => none
  | _ => none

def subAClose (s : Str) : Str := regexSub matchACloseAt s.length s

/-- Matcher for `<[^>]+>`; replacement is empty. -/
def matchTagAt (s : Str) : Option (Str × Str) :=
  match s with
  | '<' :: t =>
    let run := t.takeWhile (fun c => c ≠ '>')
    if run = [] then none
    else
      match t.drop run.length with
      | '>' :: rest => some ([], rest)
      | _ => none
  | _ => none

def stripTags (s : Str) : Str := regexSub matchTagAt s.length s

/-- Candidate completions of `[^>]*href="([^"]+)"[^>]*>` at `u` (the text
right after `<a\s+`): one `(capture, text after the closing '>')` pair per
backtracking split of the leading `[^>]*`, longest split first, i.e. in
the order the greedy engine tries them. -/
def anchorOpenCands (u : Str) : List (Str × Str) :=
  let run := u.takeWhile (fun c => c ≠ '>')
  (List.range (run.length + 1)).reverse.filterMap (fun i =>
    let v := u.drop i
    if startsW (strOf "href=\x22") (lowerStr (v.take 6)) then
      let w := v.drop 6
      let url := w.takeWhile (fun c => c ≠ '\x22')
      if url = [] then none
      else
        match w.drop url.length with
        | '\x22' :: z =>
          let p2 := z.takeWhile (fun c => c ≠ '>')
          match z.drop p2.length with
          | '>' :: rest => some (url, rest)
          | _ => none
        | _ => none
    else none)

/-- Lazy search for the literal `</a>` (IGNORECASE): splits `s` at its
first occurrence, returning the text before it and the text after it. -/
def findCloseA : Str → Option (Str × Str)
  | [] => none
  | c :: rest =>
    if startsW (strOf "</a>") (lowerStr ((c :: rest).take 4)) then
      some ([], (c :: rest).drop 4)
    else
      match findCloseA rest with
      | some (lab, r) => some (c :: lab, r)
      | none => none

/-- Matcher for the anchor pattern
`<a\s+[^>]*href="([^"]+)"[^>]*>(.*?)</a>` (IGNORECASE, DOTALL), with its
two capture groups: yields `((url, label), rest)`.  A backtracking split
of `[^>]*` succeeds only if the lazy `</a>` is also found, exactly as the
engine backtracks on total failure. -/
def matchAnchorAt (s : Str) : Option ((Str × Str) × Str) :=
  match s with
  | '<' :: c :: t2 =>
    if c.toLower = 'a' then
      let wsrun := t2.takeWhile isWs
      if wsrun = [] then none
      else
        List.findSome?
          (fun cand =>
            match findCloseA cand.2 with
            | some (lab, rest) => some ((cand.1, lab), rest)
            | none => none)
          (anchorOpenCands (t2.drop wsrun.length))
    else none
  | _ => none

/-- Matcher for `<a\s+[^>]*href="[^"]+"[^>]*>` alone (no closing tag, as
used by `html_to_text`); replacement is empty. -/
def matchAOpenAt (s : Str) : Option (Str × Str) :=
  match s with
  | '<' :: c :: t2 =>
    if c.toLower = 'a' then
      let wsrun := t2.takeWhile isWs
      if wsrun = [] then none
      else
        match (anchorOpenCands (t2.drop wsrun.length)).head? with
        | some cand => some ([], cand.2)
        | none => none
    else none
  | _ => none

def subAOpen (s : Str) : Str := regexSub matchAOpenAt s.length s

/-- Matcher for the bare-URL pattern `https?://[^\s<>"]+` (case
sensitive); yields `(url, rest)`. -/
def matchBareAt (s : Str) : Option (Str × Str) :=
  if startsW (strOf "http") s then
    let t := s.drop 4
    let p : Option (Str × Str) :=
      if startsW (strOf "://") t then some (strOf "http://", t.drop 3)
      else if startsW (strOf "s://") t then some (strOf "https://", t.drop 4)
      else none
    match p with
    | some (schemeTxt, rest0) =>
      let run := rest0.takeWhile (fun c => !isWs c && c ≠ '<' && c ≠ '>' && c ≠ '\x22')
      if run = [] then none
      else some (schemeTxt ++ run, rest0.drop run.length)
    | none => none
  else none

/-! ### `extract_links` -/

/-- Python `s.split()` (split on whitespace runs, dropping empties). -/
def splitWsGo (cur : Str) : Str → List Str
  | [] => if cur = [] then [] else [cur.reverse]
  | c :: rest =>
    if isWs c then
      if cur = [] then splitWsGo [] rest else cur.reverse :: splitWsGo [] rest
    else splitWsGo (c :: cur) rest

def splitWsPy (s : Str) : List Str := splitWsGo [] s

/-- Anchor label cleanup of `extract_links`: strip nested tags, collapse
whitespace, strip. -/
def labelClean (label : Str) : Str :=
  trim (List.intercalate [' '] (splitWsPy (stripTags label)))

/-- The anchor scan of `extract_links` (first loop), applied to the
unescaped text. -/
def anchorPhase (t : Str) : List (Str × Str) :=
  (regexFindall matchAnchorAt t.length t).filterMap (fun pr =>
    let url := normalize_url pr.1
    if url = [] ∨ is_blocked_url url = true then none
    else
      let lab := labelClean pr.2
      some ((if lab = [] then short_domain url else lab), url))

/-- The bare-URL scan of `extract_links` (second loop), applied to the
unescaped text with anchors blanked out. -/
def barePhase (t : Str) : List (Str × Str) :=
  let tNo := regexSub (fun u => (matchAnchorAt u).map (fun r => ([' '], r.2))) t.length t
  (regexFindall matchBareAt tNo.length tNo).filterMap (fun rawUrl =>
    let url := normalize_url rawUrl
    if url = [] ∨ is_blocked_url url = true then none
    else some (short_domain url, url))

/-- The de-duplication loop of `extract_links`: keep the first pair for
each url, preserving order (`seen` is the set built so far). -/
def dedupGo (seen : List Str) : List (Str × Str) → List (Str × Str)
  | [] => []
  | p :: rest =>
    if p.2 ∈ seen then dedupGo seen rest
    else p :: dedupGo (p.2 :: seen) rest

def dedupByUrl (l : List (Str × Str)) : List (Str × Str) := dedupGo [] l

/-- `extract_links` of the source. -/
def extract_links (text : Str) : List (Str × Str) :=
  let t := unescapePy text
  dedupByUrl (anchorPhase t ++ barePhase t)

/-! ### `html_to_text` -/

/-- Line-boundary characters of Python `str.splitlines`. -/
def isLineBreak (c : Char) : Bool :=
  c = '\n' || c = '\r' || c = '\x0b' || c = '\x0c' ||
  c = '\x1c' || c = '\x1d' || c = '\x1e' || c = '\x85' ||
  c = '\u2028' || c = '\u2029'

/-- Python `s.splitlines()`: a trailing line terminator does not open a new
line, and `"\r\n"` counts as a single terminator. -/
def splitlinesGo (cur : Str) : Str → List Str
  | [] => [cur.reverse]
  | '\r' :: '\n' :: rest2 =>
    cur.reverse :: (if rest2 = [] then [] else splitlinesGo [] rest2)
  | c :: rest =>
    if isLineBreak c then
      cur.reverse :: (if rest = [] then [] else splitlinesGo [] rest)
    else splitlinesGo (c :: cur) rest

def splitlinesPy (s : Str) : List Str := if s = [] then [] else splitlinesGo [] s

/-- Python `sep.join(xs)`. -/
def joinSep (sep : Str) : List Str → Str
  | [] => []
  | [x] => x
  | x :: xs => x ++ sep ++ joinSep sep xs

/-- The whitespace cleanup at the end of `html_to_text`: strip each line,
drop a blank line at the start or after another blank line, join with
newlines, strip the result. -/
def cleanLines (t : Str) : Str :=
  let lines := (splitlinesPy t).map trim
  let cleaned := lines.foldl
    (fun acc ln =>
      if ln = [] ∧ (acc = [] ∨ acc.getLast? = some []) then acc else acc ++ [ln])
    []
  trim (joinSep ['\n'] cleaned)

/-- `html_to_text` of the source. -/
def html_to_text (desc : Str) : Str :=
  if desc = [] then []
  else
    let t := replaceAll desc (strOf "\x5cn") ['\n']
    let t := replaceAll t (strOf "\x5c,") [',']
    let t := unescapePy t
    let t := subBr t
    let t := subBold t
    let t := subAOpen t
    let t := subAClose t
    let t := stripTags t
    cleanLines t

/-! ### `classify_links`

The source calls `urlparse(url).netloc` with no `try`/`except`, so a url
on which `urlparse` raises propagates the exception: the embedding is
`Except`-valued. -/

structure Buckets where
  wsib : Option (Str × Str)
  canvas : Option (Str × Str)
  meet : Option (Str × Str)
  other : List (Str × Str)
deriving DecidableEq

def classifyGo : List (Str × Str) → Buckets → Except Unit Buckets
  | [], st => .ok st
  | (label, url) :: rest, st =>
    match urlparseE url with
    | .error e => .error e
    | .ok p =>
      let host := replaceAll (lowerStr p.netloc) (strOf "www.") []
      let label_norm := trim label
      if endsW host (strOf "canvas.usuhs.edu") = true then
        match st.canvas with
        | none =>
          classifyGo rest { st with canvas := some (orDefault label_norm (strOf "Canvas"), url) }
        | some _ =>
          classifyGo rest { st with other := st.other ++ [(orDefault label_norm (short_domain url), url)] }
      else if endsW host (strOf "meet.google.com") = true then
        match st.meet with
        | none =>
          classifyGo rest { st with meet := some (orDefault label_norm (strOf "Meet"), url) }
        | some _ =>
          classifyGo rest { st with other := st.other ++ [(orDefault label_norm (short_domain url), url)] }
      else if containsSub (upperStr label_norm) (strOf "WSIB") = true ∧
          endsW host (strOf "docs.google.com") = true then
        match st.wsib with
        | none =>
          classifyGo rest { st with wsib := some (orDefault label_norm (strOf "WSIB"), url) }
        | some _ =>
          classifyGo rest { st with other := st.other ++ [(orDefault label_norm (short_domain url), url)] }
      else
        classifyGo rest { st with other := st.other ++ [(orDefault label_norm (short_domain url), url)] }

/-- `classify_links` of the source. -/
def classify_linksE (links : List (Str × Str)) : Except Unit Buckets :=
  classifyGo links ⟨none, none, none, []⟩

/-! ### `split_into_messages` and the part-label rewriting of `main` -/

/-- The loop body of `split_into_messages`: if the block does not fit,
close the current buffer (rstripped) and reseed with the header. -/
def splitStep (header : Str) (p : List Str × Str) (b : Str) : List Str × Str :=
  if SAFE_LIMIT < p.2.length + b.length + 1 then
    (p.1 ++ [rtrim p.2], (trim header ++ ['\n', '\n']) ++ b ++ ['\n'])
  else
    (p.1, p.2 ++ b ++ ['\n'])

/-- `split_into_messages` of the source (greedy first-fit pagination). -/
def split_into_messages (blocks : List Str) (header : Str) : List Str :=
  let r := blocks.foldl (splitStep header) ([], trim header ++ ['\n', '\n'])
  if trim r.2 ≠ [] then r.1 ++ [rtrim r.2] else r.1

/-- The replacement text `f"{header} *(Part {i+1}/{total})*"` minus its
leading `header`. -/
def partSuffix (i total : Nat) : Str :=
  strOf " *(Part " ++ natStr (i + 1) ++ strOf "/" ++ natStr total ++ strOf ")*"

/-- The part-label list comprehension of `main`, with `i` the 0-based
position. -/
def relabelGo (header : Str) (total : Nat) : Nat → List Str → List Str
  | _, [] => []
  | i, msg :: rest =>
    replace1 msg header (header ++ partSuffix i total) :: relabelGo header total (i + 1) rest

/-- `main`'s pagination step: `split_into_messages` followed by the
part-label rewriting applied only when more than one message resulted. -/
def final_messages (blocks : List Str) (header : Str) : List Str :=
  let messages := split_into_messages blocks header
  if 1 < messages.length then relabelGo header messages.length 0 messages
  else messages

/-! ### The "Other Links" rendering of `main` (lines 395-404)

`primary_urls = set(u for _, u in [wsib, canvas, meet] if _ is not None)`
unpacks each element before the filter runs, so a `None` role raises
`TypeError`; labels are strings (never `None`), so when unpacking
succeeds the filter keeps every url. -/

def primary_urlsE (wsib canvas meet : Option (Str × Str)) : Except Unit (List Str) :=
  match wsib, canvas, meet with
  | some w, some c, some m => .ok [w.2, c.2, m.2]
  | _, _, _ => .error ()

def renderOtherLines (other : List (Str × Str)) (primary_urls : List Str) : List Str :=
  other.foldl
    (fun lines p =>
      if p.2 ∈ primary_urls then lines
      else
        lines ++ [if p.1 ≠ [] then strOf "- " ++ p.1 ++ strOf ": " ++ p.2
                  else strOf "- " ++ p.2])
    []

/-- The whole `if other:` body of `main` producing the `other_lines`. -/
def otherSectionE (wsib canvas meet : Option (Str × Str))
    (other : List (Str × Str)) : Except Unit (List Str) :=
  match primary_urlsE wsib canvas meet with
  | .error e => .error e
  | .ok primary_urls => .ok (renderOtherLines other primary_urls)

/-! ### Message lifecycle of `main`

The webhook transport is an oracle: `del` may fail (a delete status other
than 204/404 raises), `post` returns the message id for the n-th post or
fails (a post status >= 300 raises).  `Event` records the calls actually
made, in order. -/

structure Transport where
  del : Str → Except Unit Unit
  post : Nat → Str → Except Unit Str

inductive Event where
  | delete (id : Str) : Event
  | post (content : Str) : Event
deriving DecidableEq

/-- The `for mid in old_ids: delete_discord_message(mid)` loop. -/
def deleteLoop (tr : Transport) : List Str → Except Unit (List Event)
  | [] => .ok []
  | id :: rest =>
    match tr.del id with
    | .error e => .error e
    | .ok _ =>
      match deleteLoop tr rest with
      | .error e => .error e
      | .ok evs => .ok (.delete id :: evs)

/-- The `for msg in messages: new_ids.append(post_to_discord_return_id(msg))`
loop; `i` counts the posts already made. -/
def postLoop (tr : Transport) : List Str → Nat → Except Unit (List Event × List Str)
  | [], _ => .ok ([], [])
  | msg :: rest, i =>
    match tr.post i msg with
    | .error e => .error e
    | .ok mid =>
      match postLoop tr rest (i + 1) with
      | .error e => .error e
      | .ok (evs, ids) => .ok (.post msg :: evs, mid :: ids)

/-- The lifecycle of one run of `main`: delete all prior ids, post the new
messages, persist exactly the returned ids (`save_message_ids` overwrites
the state file, so the returned id list is the entire new persisted
state, independent of the prior one). -/
def mainRun (tr : Transport) (oldIds msgs : List Str) :
    Except Unit (List Event × List Str) :=
  match deleteLoop tr oldIds with
  | .error e => .error e
  | .ok devs =>
    match postLoop tr msgs 0 with
    | .error e => .error e
    | .ok (pevs, ids) => .ok (devs ++ pevs, ids)

/-! ## Lemmas about the string primitives -/

lemma startsW_iff (p : Str) : ∀ s : Str, startsW p s = true ↔ ∃ t, s = p ++ t := by
  induction p with
  | nil => intro s; simp [startsW]
  | cons c cs ih =>
    intro s
    cases s with
    | nil => simp [startsW]
    | cons d ds =>
      simp only [startsW, Bool.and_eq_true, decide_eq_true_eq, ih ds]
      constructor
      · rintro ⟨rfl, t, rfl⟩; exact ⟨t, rfl⟩
      · rintro ⟨t, ht⟩
        cases ht
        exact ⟨rfl, t, rfl⟩

lemma startsW_append (p t : Str) : startsW p (p ++ t) = true :=
  (startsW_iff p (p ++ t)).2 ⟨t, rfl⟩

lemma rtrim_prefix (s : Str) : rtrim s <+: s := by
  have h : s.reverse.dropWhile isWs <:+ s.reverse := s.reverse.dropWhile_suffix isWs
  have h2 : (s.reverse.dropWhile isWs).reverse <+: s.reverse.reverse :=
    List.reverse_prefix.2 h
  simpa [rtrim] using h2

lemma rtrim_length_le (s : Str) : (rtrim s).length ≤ s.length :=
  ( rtrim_prefix s).sublist.length_le

lemma ltrim_suffix (s : Str) : ltrim s <:+ s := s.dropWhile_suffix isWs

lemma trim_length_le (s : Str) : (trim s).length ≤ s.length :=
  le_trans (ltrim_suffix (rtrim s)).sublist.length_le (rtrim_length_le s)

lemma reverse_rtrim (s : Str) : (rtrim s).reverse = s.reverse.dropWhile isWs := by
  simp [rtrim]

lemma rtrim_append_ws (l t : Str) (h : ∀ c ∈ t, isWs c = true) :
    rtrim (l ++ t) = rtrim l := by
  unfold rtrim
  rw [List.reverse_append, List.dropWhile_append]
  have hnil : t.reverse.dropWhile isWs = [] :=
    List.dropWhile_eq_nil_iff.2 (fun x hx => h x (List.mem_reverse.1 hx))
  simp [hnil]

lemma s_eq_rtrim_append (s : Str) :
    ∃ t, s = rtrim s ++ t ∧ ∀ c ∈ t, isWs c = true := by
  refine ⟨(s.reverse.takeWhile isWs).reverse, ?_, ?_⟩
  · conv_lhs => rw [← s.reverse_reverse, ← List.takeWhile_append_dropWhile (p := isWs) (l := s.reverse)]
    rw [List.reverse_append]
    rfl
  · intro c hc
    exact List.mem_takeWhile_imp (List.mem_reverse.1 hc)

lemma rtrim_eq_self_of_length (s : Str) (h : s.length ≤ (rtrim s).length) :
    rtrim s = s :=
  ( rtrim_prefix s).eq_of_length (le_antisymm (rtrim_length_le s) h)

lemma rtrim_of_trim_eq_self (H : Str) (h : trim H = H) : rtrim H = H := by
  apply rtrim_eq_self_of_length
  calc H.length = (trim H).length := by rw [h]
    _ ≤ (rtrim H).length := (ltrim_suffix (rtrim H)).sublist.length_le

lemma ltrim_of_trim_eq_self (H : Str) (h : trim H = H) : ltrim H = H := by
  have hr := rtrim_of_trim_eq_self H h
  calc ltrim H = ltrim (rtrim H) := by rw [hr]
    _ = trim H := rfl
    _ = H := h

lemma dropWhile_eq_self_of_reverse (s : Str) (h : rtrim s = s) :
    s.reverse.dropWhile isWs = s.reverse := by
  rw [← reverse_rtrim, h]

lemma startsW_rtrim (H s : Str) (hH : rtrim H = H) (hs : startsW H s = true) :
    startsW H (rtrim s) = true := by
  obtain ⟨t, rfl⟩ := (startsW_iff H s).1 hs
  unfold rtrim
  rw [List.reverse_append, List.dropWhile_append]
  by_cases he : (t.reverse.dropWhile isWs).isEmpty = true
  · rw [if_pos he, dropWhile_eq_self_of_reverse H hH, List.reverse_reverse]
    exact (startsW_iff H H).2 ⟨[], by simp⟩
  · rw [if_neg he, List.reverse_append, List.reverse_reverse]
    exact startsW_append H _

lemma all_ws_of_trim_eq_nil (s : Str) (h : trim s = []) : ∀ c ∈ s, isWs c = true := by
  have h1 : ∀ c ∈ rtrim s, isWs c = true := List.dropWhile_eq_nil_iff.1 h
  obtain ⟨t, hst, ht⟩ := s_eq_rtrim_append s
  intro c hc
  rw [hst] at hc
  rcases List.mem_append.1 hc with h' | h'
  · exact h1 c h'
  · exact ht c h'

lemma ltrim_head_not_ws (s : Str) : ∀ c, (ltrim s).head? = some c → isWs c = false := by
  induction s with
  | nil => intro c hc; simp [ltrim] at hc
  | cons d ds ih =>
    intro c hc
    by_cases hd : isWs d
    · exact ih c (by simpa [ltrim, List.dropWhile_cons, hd] using hc)
    · simp only [ltrim, List.dropWhile_cons, hd] at hc
      simp only [if_neg, Bool.false_eq_true, reduceIte, List.head?_cons, Option.some.injEq] at hc
      rw [← hc]
      exact Bool.of_not_eq_true hd

lemma trim_head_not_ws (s : Str) : ∀ c, (trim s).head? = some c → isWs c = false :=
  ltrim_head_not_ws (rtrim s)

lemma trim_ne_nil_of_startsW (H s : Str) (hne : H ≠ [])
    (hh : ∀ c, H.head? = some c → isWs c = false) (hs : startsW H s = true) :
    trim s ≠ [] := by
  intro habs
  obtain ⟨t, rfl⟩ := (startsW_iff H s).1 hs
  cases H with
  | nil => exact hne rfl
  | cons c cs =>
    have hcw : isWs c = false := hh c rfl
    have : isWs c = true := all_ws_of_trim_eq_nil _ habs c (by simp)
    rw [hcw] at this
    exact Bool.false_ne_true this

/-! ## Lemmas about `replaceAll` -/

lemma containsSub_cons (c : Char) (rest pat : Str) :
    containsSub (c :: rest) pat = (startsW pat (c :: rest) || containsSub rest pat) := by
  rfl

lemma replaceAllGo_of_not_contains (pat rep : Str) :
    ∀ (fuel : Nat) (s : Str), containsSub s pat = false → replaceAllGo pat rep fuel s = s := by
  intro fuel
  induction fuel with
  | zero => intro s _; cases s <;> simp [replaceAllGo]
  | succ n ih =>
    intro s hs
    cases s with
    | nil => rfl
    | cons c rest =>
      rw [containsSub_cons, Bool.or_eq_false_iff] at hs
      have hns : ¬(pat ≠ [] ∧ startsW pat (c :: rest) = true) := by
        intro hcon
        rw [hs.1] at hcon
        simp at hcon
      simp only [replaceAllGo, if_neg hns]
      rw [ih rest hs.2]

lemma replaceAll_of_not_contains (s pat rep : Str) (hs : containsSub s pat = false) :
    replaceAll s pat rep = s :=
  replaceAllGo_of_not_contains pat rep s.length s hs

lemma replaceAll_split (pat rep rest : Str) (hp : pat ≠ [])
    (hrest : containsSub rest pat = false) :
    replaceAll (pat ++ rest) pat rep = rep ++ rest := by
  cases pat with
  | nil => exact absurd rfl hp
  | cons c cs =>
    show replaceAllGo (c :: cs) rep ((c :: cs) ++ rest).length ((c :: cs) ++ rest) = rep ++ rest
    rw [show ((c :: cs) ++ rest).length = (cs ++ rest).length + 1 by simp, List.cons_append]
    have hc : (c :: cs ≠ [] ∧ startsW (c :: cs) (c :: (cs ++ rest)) = true) := by
      refine ⟨List.cons_ne_nil c cs, ?_⟩
      rw [← List.cons_append]
      exact startsW_append (c :: cs) rest
    simp only [replaceAllGo, if_pos hc]
    rw [← List.cons_append, List.drop_left]
    rw [replaceAllGo_of_not_contains (c :: cs) rep (cs ++ rest).length rest hrest]

/-! ## Claim C3 -/

/-- C3 (code bug): the claim says no operation of the link pipeline
(extraction, denylist check, short-domain fallback, classification)
raises on a malformed url.  Extraction, the denylist check and the
short-domain fallback do recover (first four conjuncts: the url with an
unbalanced bracket in its authority is passed through with label
`"link"`, treated as non-blocked), but `classify_links` calls
`urlparse(url).netloc` with no `try`/`except`, so the `ValueError` from
`urlparse` propagates to the caller (last conjunct). -/
theorem c3_classification_raises_on_malformed_url :
    extract_links (strOf "http://[x") = [(strOf "link", strOf "http://[x")] ∧
    is_blocked_url (strOf "http://[x") = false ∧
    short_domain (strOf "http://[x") = strOf "link" ∧
    urlparseE (strOf "http://[x") = .error () ∧
    classify_linksE [(strOf "link", strOf "http://[x")] = .error () :=
  ⟨rfl, rfl, rfl, rfl, rfl⟩

/-! ## Claim C6 -/

/-- Modelled from the spec's words for claim C6 only (for comparison with
`short_domain`): remove a leading `"www."` prefix. -/
def stripLeadingWww (h : Str) : Str :=
  if startsW (strOf "www.") h then h.drop 4 else h

/-- Modelled from the spec's words for claim C6 only: "the parsed host
with only a leading `www.` prefix removed, or the literal `link` when the
host cannot be parsed or is empty". -/
def shortDomainSpec (url : Str) : Str :=
  match urlparseE url with
  | .error _ => strOf "link"
  | .ok p => if p.netloc = [] then strOf "link" else stripLeadingWww p.netloc

/-- C6 (counterexample): `short_domain` removes every occurrence of
`"www."` from the host, not only a leading prefix, so a host with an
interior `"www."` is altered where the claim says it must not be. -/
theorem c6_counterexample :
    short_domain (strOf "https://a.www.b.com/") = strOf "a.b.com" ∧
    shortDomainSpec (strOf "https://a.www.b.com/") = strOf "a.www.b.com" ∧
    short_domain (strOf "https://a.www.b.com/") ≠
      shortDomainSpec (strOf "https://a.www.b.com/") :=
  ⟨rfl, rfl, by decide⟩

/-- C6 (amended): `short_domain` equals the parsed host with every
occurrence of `"www."` removed; on hosts where `"www."` occurs at most as
a leading prefix this coincides with removing the leading `"www."`, and
the result is `"link"` when the url cannot be parsed or the removal left
the host empty. -/
theorem c6_short_domain_spec :
    (∀ url, urlparseE url = .error () → short_domain url = strOf "link") ∧
    (∀ url p, urlparseE url = .ok p →
      containsSub (stripLeadingWww p.netloc) (strOf "www.") = false →
      short_domain url =
        if stripLeadingWww p.netloc = [] then strOf "link"
        else stripLeadingWww p.netloc) := by
  constructor
  · intro url herr
    unfold short_domain
    rw [herr]
  · intro url p hok hno
    have hsd : short_domain url =
        (if replaceAll p.netloc (strOf "www.") [] = [] then strOf "link"
         else replaceAll p.netloc (strOf "www.") []) := by
      unfold short_domain
      rw [hok]
    rw [hsd]
    by_cases hw : startsW (strOf "www.") p.netloc = true
    · obtain ⟨r, hr⟩ := (startsW_iff (strOf "www.") p.netloc).1 hw
      have hstrip : stripLeadingWww p.netloc = r := by
        unfold stripLeadingWww
        rw [if_pos hw, hr]
        rfl
      rw [hstrip] at hno ⊢
      rw [hr, replaceAll_split (strOf "www.") [] r (by decide) hno]
      simp
    · have hstrip : stripLeadingWww p.netloc = p.netloc := by
        unfold stripLeadingWww
        rw [if_neg hw]
      rw [hstrip] at hno ⊢
      rw [replaceAll_of_not_contains p.netloc (strOf "www.") [] hno]

/-- Witness for C6 at a concrete url whose host carries a leading
`"www."`. -/
theorem c6_short_domain_spec_witness :
    containsSub (stripLeadingWww (strOf "www.example.org")) (strOf "www.") = false ∧
    short_domain (strOf "https://www.example.org/x") =
      (if stripLeadingWww (strOf "www.example.org") = [] then strOf "link"
       else stripLeadingWww (strOf "www.example.org")) :=
  ⟨by decide,
    c6_short_domain_spec.2 (strOf "https://www.example.org/x")
      ⟨strOf "https", strOf "www.example.org"⟩ rfl (by decide)⟩

/-! ## Claim C2 -/

lemma deleteLoop_spec (tr : Transport) :
    ∀ (olds : List Str) (evs : List Event),
      deleteLoop tr olds = .ok evs → evs = olds.map Event.delete := by
  intro olds
  induction olds with
  | nil => intro evs h; simp [deleteLoop] at h; simp [h.symm]
  | cons id rest ih =>
    intro evs h
    cases hdel : tr.del id with
    | error e => simp [deleteLoop, hdel] at h
    | ok _ =>
      cases hrec : deleteLoop tr rest with
      | error e => simp [deleteLoop, hdel, hrec] at h
      | ok evs' =>
        simp only [deleteLoop, hdel, hrec] at h
        cases h
        rw [ih evs' hrec]
        rfl

lemma postLoop_spec (tr : Transport) :
    ∀ (msgs : List Str) (i : Nat) (evs : List Event) (ids : List Str),
      postLoop tr msgs i = .ok (evs, ids) →
      evs = msgs.map Event.post ∧ ids.length = msgs.length ∧
        ∀ j (hj : j < msgs.length) (hj' : j < ids.length),
          tr.post (i + j) (msgs.get ⟨j, hj⟩) = .ok (ids.get ⟨j, hj'⟩) := by
  intro msgs
  induction msgs with
  | nil =>
    intro i evs ids h
    simp only [postLoop] at h
    cases h
    exact ⟨rfl, rfl, fun j hj _ => absurd hj (by simp)⟩
  | cons m rest ih =>
    intro i evs ids h
    cases hpost : tr.post i m with
    | error e => simp [postLoop, hpost] at h
    | ok mid =>
      cases hrec : postLoop tr rest (i + 1) with
      | error e => simp [postLoop, hpost, hrec] at h
      | ok pr =>
        obtain ⟨evs', ids'⟩ := pr
        simp only [postLoop, hpost, hrec] at h
        cases h
        obtain ⟨h1, h2, h3⟩ := ih (i + 1) evs' ids' hrec
        refine ⟨by rw [h1]; rfl, by simp [h2], ?_⟩
        intro j hj hj'
        cases j with
        | zero => simpa using hpost
        | succ k =>
          have hk : k < rest.length := by simpa using hj
          have hk' : k < ids'.length := by simpa using hj'
          have := h3 k hk hk'
          simpa [Nat.add_assoc, Nat.add_comm 1 k] using this

lemma event_delete_injective : Function.Injective Event.delete := by
  intro a b h
  injection h

/-- C2: when every delete and every post succeeds, the persisted state is
exactly the list of ids returned by the posts in post order (so its
length is the number of newly posted messages, and it replaces the prior
state, which `mainRun` does not consult when building it); `delete` is
invoked once per id of the prior state (counted with multiplicity), and
the event trace places all deletes before all posts. -/
theorem c2_lifecycle (tr : Transport) (oldIds msgs : List Str)
    (evs : List Event) (saved : List Str)
    (h : mainRun tr oldIds msgs = .ok (evs, saved)) :
    saved.length = msgs.length ∧
    evs = oldIds.map Event.delete ++ msgs.map Event.post ∧
    (∀ id, evs.countP (fun e => decide (e = Event.delete id)) =
      oldIds.countP (fun s => decide (s = id))) ∧
    (∀ j (hj : j < msgs.length) (hj' : j < saved.length),
      tr.post j (msgs.get ⟨j, hj⟩) = .ok (saved.get ⟨j, hj'⟩)) := by
  cases hdel : deleteLoop tr oldIds with
  | error e => simp [mainRun, hdel] at h
  | ok devs =>
    cases hpost : postLoop tr msgs 0 with
    | error e => simp [mainRun, hdel, hpost] at h
    | ok pr =>
      obtain ⟨pevs, ids⟩ := pr
      simp only [mainRun, hdel, hpost] at h
      cases h
      obtain ⟨hp1, hp2, hp3⟩ := postLoop_spec tr msgs 0 pevs saved hpost
      have hd1 := deleteLoop_spec tr oldIds devs hdel
      refine ⟨hp2, by rw [hd1, hp1], ?_, ?_⟩
      · intro id
        rw [hd1, hp1, List.countP_append, List.countP_map, List.countP_map]
        have h1 : ((fun e => decide (e = Event.delete id)) ∘ Event.delete) =
            fun s : Str => decide (s = id) := by
          funext s
          simp [Function.comp]
        have h2 : ((fun e => decide (e = Event.delete id)) ∘ Event.post) =
            fun _ : Str => false := by
          funext s
          simp [Function.comp]
        rw [h1, h2]
        simp
      · intro j hj hj'
        have := hp3 j hj hj'
        simpa using this

/-- A transport whose deletes always succeed and whose n-th post returns
the id `str(n)`. -/
def trWitness : Transport :=
  ⟨fun _ => .ok (), fun i _ => .ok (natStr i)⟩

/-- Witness for C2 on a concrete run: one prior id, two new messages. -/
theorem c2_lifecycle_witness :
    mainRun trWitness [strOf "9"] [strOf "m1", strOf "m2"] =
      .ok ([Event.delete (strOf "9"), Event.post (strOf "m1"), Event.post (strOf "m2")],
        [natStr 0, natStr 1]) ∧
    ([natStr 0, natStr 1] : List Str).length = [strOf "m1", strOf "m2"].length ∧
    [Event.delete (strOf "9"), Event.post (strOf "m1"), Event.post (strOf "m2")].countP
        (fun e => decide (e = Event.delete (strOf "9"))) =
      [strOf "9"].countP (fun s => decide (s = strOf "9")) := by
  have h : mainRun trWitness [strOf "9"] [strOf "m1", strOf "m2"] =
      .ok ([Event.delete (strOf "9"), Event.post (strOf "m1"), Event.post (strOf "m2")],
        [natStr 0, natStr 1]) := by rfl
  obtain ⟨h1, _, h3, _⟩ := c2_lifecycle trWitness [strOf "9"] [strOf "m1", strOf "m2"] _ _ h
  exact ⟨h, h1, h3 (strOf "9")⟩

/-! ## Claim C4 -/

/-- Modelled from the spec's words for claim C4 only: "identical modulo
case and scheme normalization of the bare domain" (lowercase, drop the
`http(s)://` scheme, drop a leading `www.`). -/
def bareDomainNorm (u : Str) : Str :=
  let l := lowerStr u
  let l := if startsW (strOf "https://") l then l.drop 8
           else if startsW (strOf "http://") l then l.drop 7
           else l
  stripLeadingWww l

/-- C4 (counterexample): a bare link `https://example.com` carries the
pipeline label `short_domain = "example.com"`; the rendered other-links
line shows both that label and the url, although they are identical
modulo the claim's case/scheme normalization, where the claim says the
line would show the bare url only. -/
theorem c4_counterexample :
    short_domain (strOf "https://example.com") = strOf "example.com" ∧
    otherSectionE (some (strOf "W", strOf "https://docs.google.com/w"))
      (some (strOf "C", strOf "https://canvas.usuhs.edu/c"))
      (some (strOf "M", strOf "https://meet.google.com/m"))
      [(strOf "example.com", strOf "https://example.com")] =
      .ok [strOf "- example.com: https://example.com"] ∧
    bareDomainNorm (strOf "https://example.com") = strOf "example.com" ∧
    containsSub (strOf "- example.com: https://example.com")
      (strOf "example.com") = true ∧
    containsSub (strOf "- example.com: https://example.com")
      (strOf "https://example.com") = true :=
  ⟨rfl, rfl, rfl, by decide, by decide⟩

lemma renderOtherLines_acc_mem (pr : List Str) :
    ∀ (other : List (Str × Str)) (acc : List Str) (x : Str), x ∈ acc →
      x ∈ other.foldl
        (fun lines p =>
          if p.2 ∈ pr then lines
          else
            lines ++ [if p.1 ≠ [] then strOf "- " ++ p.1 ++ strOf ": " ++ p.2
                      else strOf "- " ++ p.2])
        acc := by
  intro other
  induction other with
  | nil => intro acc x hx; exact hx
  | cons p rest ih =>
    intro acc x hx
    simp only [List.foldl_cons]
    by_cases hp : p.2 ∈ pr
    · rw [if_pos hp]; exact ih acc x hx
    · rw [if_neg hp]; exact ih _ x (List.mem_append_left _ hx)

lemma renderOtherLines_mem (pr : List Str) :
    ∀ (other : List (Str × Str)) (acc : List Str) (lbl url : Str),
      (lbl, url) ∈ other → url ∉ pr → lbl ≠ [] →
      (strOf "- " ++ lbl ++ strOf ": " ++ url) ∈ other.foldl
        (fun lines p =>
          if p.2 ∈ pr then lines
          else
            lines ++ [if p.1 ≠ [] then strOf "- " ++ p.1 ++ strOf ": " ++ p.2
                      else strOf "- " ++ p.2])
        acc := by
  intro other
  induction other with
  | nil => intro acc lbl url hmem; exact absurd hmem (List.not_mem_nil _)
  | cons p rest ih =>
    intro acc lbl url hmem hnp hne
    simp only [List.foldl_cons]
    rcases List.mem_cons.1 hmem with heq | hrest
    · cases heq
      rw [if_neg hnp, if_pos hne]
      exact renderOtherLines_acc_mem pr rest _ _ (by simp)
    · by_cases hp : p.2 ∈ pr
      · rw [if_pos hp]; exact ih acc lbl url hrest hnp hne
      · rw [if_neg hp]; exact ih _ lbl url hrest hnp hne

/-- C4 (amended): the other-links rendering performs no redundancy
suppression at all: every link of `other` whose url is not a primary url
and whose label is non-empty is rendered as `- label: url`, label and url
both shown, whatever the label; a bare `- url` appears only for an empty
label. -/
theorem c4_label_always_shown (wsib canvas meet : Option (Str × Str))
    (other : List (Str × Str)) (lines : List Str) (lbl url : Str)
    (hok : otherSectionE wsib canvas meet other = .ok lines)
    (hmem : (lbl, url) ∈ other)
    (hnp : ∀ pr, primary_urlsE wsib canvas meet = .ok pr → url ∉ pr)
    (hne : lbl ≠ []) :
    (strOf "- " ++ lbl ++ strOf ": " ++ url) ∈ lines := by
  cases hpr : primary_urlsE wsib canvas meet with
  | error e => simp [otherSectionE, hpr] at hok
  | ok pr =>
    simp only [otherSectionE, hpr] at hok
    cases hok
    exact renderOtherLines_mem pr other [] lbl url hmem (hnp pr hpr) hne

/-- Witness for C4's amended claim at a concrete links set with all three
primary roles filled. -/
theorem c4_label_always_shown_witness :
    otherSectionE (some (strOf "W", strOf "https://docs.google.com/w"))
      (some (strOf "C", strOf "https://canvas.usuhs.edu/c"))
      (some (strOf "M", strOf "https://meet.google.com/m"))
      [(strOf "lab", strOf "https://ex.com/x")] =
      .ok [strOf "- lab: https://ex.com/x"] ∧
    (strOf "- lab: https://ex.com/x") ∈ [strOf "- lab: https://ex.com/x"] :=
  ⟨rfl,
    c4_label_always_shown (some (strOf "W", strOf "https://docs.google.com/w"))
      (some (strOf "C", strOf "https://canvas.usuhs.edu/c"))
      (some (strOf "M", strOf "https://meet.google.com/m"))
      [(strOf "lab", strOf "https://ex.com/x")]
      [strOf "- lab: https://ex.com/x"] (strOf "lab") (strOf "https://ex.com/x")
      rfl (by decide) (fun pr hpr => by cases hpr; decide) (by decide)⟩

/-! ## Claim C10 -/

def optList {α : Type} : Option α → List α
  | none => []
  | some a => [a]

/-- The urls of all buckets, named roles first. -/
def bucketUrls (b : Buckets) : List Str :=
  (optList b.wsib).map Prod.snd ++ (optList b.canvas).map Prod.snd ++
    (optList b.meet).map Prod.snd ++ b.other.map Prod.snd

def rolesFilled (b : Buckets) : Nat :=
  (optList b.wsib).length + (optList b.canvas).length + (optList b.meet).length

lemma classifyGo_perm :
    ∀ (links : List (Str × Str)) (st b : Buckets),
      classifyGo links st = .ok b →
      (bucketUrls b).Perm (bucketUrls st ++ links.map Prod.snd) := by
  intro links
  induction links with
  | nil =>
    intro st b h
    simp only [classifyGo] at h
    cases h
    simp
  | cons p rest ih =>
    obtain ⟨label, url⟩ := p
    intro st b h
    obtain ⟨w, c, m, o⟩ := st
    cases hu : urlparseE url with
    | error e => simp [classifyGo, hu] at h
    | ok parts =>
      simp only [classifyGo, hu] at h
      have key : ∀ st' : Buckets,
          classifyGo rest st' = .ok b →
          (bucketUrls st').Perm (bucketUrls ⟨w, c, m, o⟩ ++ [url]) →
          (bucketUrls b).Perm (bucketUrls ⟨w, c, m, o⟩ ++ ((label, url) :: rest).map Prod.snd) := by
        intro st' hrec hperm
        refine (ih st' b hrec).trans ?_
        refine (hperm.append_right (rest.map Prod.snd)).trans ?_
        have heq : (bucketUrls ⟨w, c, m, o⟩ ++ [url]) ++ rest.map Prod.snd =
            bucketUrls ⟨w, c, m, o⟩ ++ ((label, url) :: rest).map Prod.snd := by
          simp
        rw [heq]
      split at h
      · cases c with
        | none =>
          refine key _ h ?_
          rw [← Multiset.coe_eq_coe]
          simp only [bucketUrls, optList, List.map_cons, List.map_nil, ← Multiset.coe_add,
            List.append_nil, ← Multiset.cons_coe, ← Multiset.singleton_add]
          abel
        | some x =>
          refine key _ h ?_
          rw [← Multiset.coe_eq_coe]
          simp only [bucketUrls, optList, List.map_cons, List.map_nil, List.map_append,
            ← Multiset.coe_add, List.append_nil, ← Multiset.cons_coe, ← Multiset.singleton_add]
          abel
      · split at h
        · cases m with
          | none =>
            refine key _ h ?_
            rw [← Multiset.coe_eq_coe]
            simp only [bucketUrls, optList, List.map_cons, List.map_nil, ← Multiset.coe_add,
              List.append_nil, ← Multiset.cons_coe, ← Multiset.singleton_add]
            abel
          | some x =>
            refine key _ h ?_
            rw [← Multiset.coe_eq_coe]
            simp only [bucketUrls, optList, List.map_cons, List.map_nil, List.map_append,
              ← Multiset.coe_add, List.append_nil, ← Multiset.cons_coe, ← Multiset.singleton_add]
            abel
        · split at h
          · cases w with
            | none =>
              refine key _ h ?_
              rw [← Multiset.coe_eq_coe]
              simp only [bucketUrls, optList, List.map_cons, List.map_nil, ← Multiset.coe_add,
                List.append_nil, ← Multiset.cons_coe, ← Multiset.singleton_add]
              abel
            | some x =>
              refine key _ h ?_
              rw [← Multiset.coe_eq_coe]
              simp only [bucketUrls, optList, List.map_cons, List.map_nil, List.map_append,
                ← Multiset.coe_add, List.append_nil, ← Multiset.cons_coe, ← Multiset.singleton_add]
              abel
          · refine key _ h ?_
            rw [← Multiset.coe_eq_coe]
            simp only [bucketUrls, optList, List.map_cons, List.map_nil, List.map_append,
              ← Multiset.coe_add, List.append_nil, ← Multiset.cons_coe, ← Multiset.singleton_add]
            abel

/-- C10: on every link list with pairwise-distinct urls on which
`classify_links` returns (no url makes `urlparse` raise), the buckets
partition the input: the multiset of urls across the three named roles
(each at most one by construction) and `other` is exactly the multiset of
input urls, the number of filled roles plus the length of `other` equals
the input length, and no url of a named role also appears in `other`. -/
theorem c10_classify_partition (links : List (Str × Str)) (b : Buckets)
    (hok : classify_linksE links = .ok b)
    (hnd : (links.map Prod.snd).Nodup) :
    (bucketUrls b).Perm (links.map Prod.snd) ∧
    rolesFilled b + b.other.length = links.length ∧
    (∀ u, u ∈ (optList b.wsib).map Prod.snd ++ (optList b.canvas).map Prod.snd ++
        (optList b.meet).map Prod.snd → u ∉ b.other.map Prod.snd) := by
  have hperm : (bucketUrls b).Perm (links.map Prod.snd) := by
    have h := classifyGo_perm links ⟨none, none, none, []⟩ b hok
    simpa [bucketUrls, optList] using h
  refine ⟨hperm, ?_, ?_⟩
  · have hlen := hperm.length_eq
    simp only [bucketUrls, List.length_append, List.length_map] at hlen
    simp only [rolesFilled]
    omega
  · have hnodup : (bucketUrls b).Nodup := hperm.nodup_iff.2 hnd
    have hsplit : bucketUrls b =
        ((optList b.wsib).map Prod.snd ++ (optList b.canvas).map Prod.snd ++
          (optList b.meet).map Prod.snd) ++ b.other.map Prod.snd := by
      simp [bucketUrls, List.append_assoc]
    rw [hsplit] at hnodup
    exact fun u hu => (List.nodup_append.1 hnodup).2.2 hu

/-- Witness for C10 at a concrete link list: one Canvas link, one other
link. -/
theorem c10_classify_partition_witness :
    classify_linksE
        [(strOf "x", strOf "https://canvas.usuhs.edu/c"),
         (([] : Str), strOf "https://ex.com/a")] =
      .ok ⟨none, some (strOf "x", strOf "https://canvas.usuhs.edu/c"), none,
        [(strOf "ex.com", strOf "https://ex.com/a")]⟩ ∧
    (([(strOf "x", strOf "https://canvas.usuhs.edu/c"),
       (([] : Str), strOf "https://ex.com/a")]).map Prod.snd).Nodup ∧
    rolesFilled ⟨none, some (strOf "x", strOf "https://canvas.usuhs.edu/c"), none,
        [(strOf "ex.com", strOf "https://ex.com/a")]⟩ +
      (Buckets.mk none (some (strOf "x", strOf "https://canvas.usuhs.edu/c")) none
        [(strOf "ex.com", strOf "https://ex.com/a")]).other.length =
      [(strOf "x", strOf "https://canvas.usuhs.edu/c"),
       (([] : Str), strOf "https://ex.com/a")].length := by
  have h : classify_linksE
      [(strOf "x", strOf "https://canvas.usuhs.edu/c"),
       (([] : Str), strOf "https://ex.com/a")] =
      .ok ⟨none, some (strOf "x", strOf "https://canvas.usuhs.edu/c"), none,
        [(strOf "ex.com", strOf "https://ex.com/a")]⟩ := by rfl
  refine ⟨h, by decide, ?_⟩
  exact (c10_classify_partition _ _ h (by decide)).2.1

/-! ## Claim C5 -/

lemma dedupGo_sublist : ∀ (l : List (Str × Str)) (seen : List Str),
    (dedupGo seen l).Sublist l := by
  intro l
  induction l with
  | nil => intro seen; simp [dedupGo]
  | cons p rest ih =>
    intro seen
    simp only [dedupGo]
    by_cases hp : p.2 ∈ seen
    · rw [if_pos hp]
      exact (ih seen).cons p
    · rw [if_neg hp]
      exact (ih (p.2 :: seen)).cons₂ p

lemma dedupGo_not_seen : ∀ (l : List (Str × Str)) (seen : List Str) (p : Str × Str),
    p ∈ dedupGo seen l → p.2 ∉ seen := by
  intro l
  induction l with
  | nil => intro seen p hp; simp [dedupGo] at hp
  | cons q rest ih =>
    intro seen p hp
    simp only [dedupGo] at hp
    by_cases hq : q.2 ∈ seen
    · rw [if_pos hq] at hp
      exact ih seen p hp
    · rw [if_neg hq] at hp
      rcases List.mem_cons.1 hp with heq | hmem
      · cases heq; exact hq
      · intro habs
        exact ih (q.2 :: seen) p hmem (List.mem_cons_of_mem _ habs)

lemma dedupGo_nodup : ∀ (l : List (Str × Str)) (seen : List Str),
    ((dedupGo seen l).map Prod.snd).Nodup := by
  intro l
  induction l with
  | nil => intro seen; simp [dedupGo]
  | cons q rest ih =>
    intro seen
    simp only [dedupGo]
    by_cases hq : q.2 ∈ seen
    · rw [if_pos hq]
      exact ih seen
    · rw [if_neg hq]
      simp only [List.map_cons, List.nodup_cons]
      refine ⟨?_, ih (q.2 :: seen)⟩
      intro habs
      obtain ⟨p, hpmem, hpu⟩ := List.mem_map.1 habs
      have := dedupGo_not_seen rest (q.2 :: seen) p hpmem
      rw [hpu] at this
      exact this (by simp)

lemma dedupGo_complete : ∀ (l : List (Str × Str)) (seen : List Str) (u : Str),
    u ∈ l.map Prod.snd → u ∉ seen → u ∈ (dedupGo seen l).map Prod.snd := by
  intro l
  induction l with
  | nil => intro seen u hu; simp at hu
  | cons q rest ih =>
    intro seen u hu hus
    obtain ⟨pr, hpr, hpru⟩ := List.mem_map.1 hu
    simp only [dedupGo]
    by_cases hq : q.2 ∈ seen
    · rw [if_pos hq]
      rcases List.mem_cons.1 hpr with heq | hmem
      · exfalso; apply hus; rw [← hpru, heq]; exact hq
      · exact ih seen u (hpru ▸ List.mem_map_of_mem Prod.snd hmem) hus
    · rw [if_neg hq]
      by_cases hequ : u = q.2
      · simp [List.map_cons, hequ]
      · simp only [List.map_cons, List.mem_cons]
        right
        rcases List.mem_cons.1 hpr with heq | hmem
        · exfalso; apply hequ; rw [← hpru, heq]
        · exact ih (q.2 :: seen) u (hpru ▸ List.mem_map_of_mem Prod.snd hmem)
            (by simp only [List.mem_cons, not_or]; exact ⟨hequ, hus⟩)

lemma dedupGo_find : ∀ (l : List (Str × Str)) (seen : List Str) (p : Str × Str),
    p ∈ dedupGo seen l →
    List.find? (fun q => decide (q.2 = p.2)) l = some p := by
  intro l
  induction l with
  | nil => intro seen p hp; simp [dedupGo] at hp
  | cons q rest ih =>
    intro seen p hp
    simp only [dedupGo] at hp
    by_cases hq : q.2 ∈ seen
    · rw [if_pos hq] at hp
      have hne : q.2 ≠ p.2 := by
        intro habs
        exact dedupGo_not_seen rest seen p hp (habs ▸ hq)
      rw [List.find?_cons_of_neg _ (by simpa using hne)]
      exact ih seen p hp
    · rw [if_neg hq] at hp
      rcases List.mem_cons.1 hp with heq | hmem
      · cases heq
        rw [List.find?_cons_of_pos _ (by simp)]
      · have hne : q.2 ≠ p.2 := by
          intro habs
          exact dedupGo_not_seen rest (q.2 :: seen) p hmem (by simp [habs])
        rw [List.find?_cons_of_neg _ (by simpa using hne)]
        exact ih (q.2 :: seen) p hmem

lemma anchorPhase_not_blocked (t : Str) (p : Str × Str) (hp : p ∈ anchorPhase t) :
    is_blocked_url p.2 = false := by
  obtain ⟨a, _, hfa⟩ := List.mem_filterMap.1 hp
  dsimp only at hfa
  split at hfa
  · exact Option.noConfusion hfa
  next hcond =>
    cases hfa
    simpa using (not_or.1 hcond).2

lemma barePhase_not_blocked (t : Str) (p : Str × Str) (hp : p ∈ barePhase t) :
    is_blocked_url p.2 = false := by
  obtain ⟨a, _, hfa⟩ := List.mem_filterMap.1 hp
  dsimp only at hfa
  split at hfa
  · exact Option.noConfusion hfa
  next hcond =>
    cases hfa
    simpa using (not_or.1 hcond).2

/-- C5: the urls of `extract_links`' output are pairwise distinct; no
output url is denylisted (by scheme or host, i.e. `is_blocked_url` is
false on it); the output is a sublist of the anchor-scan results followed
by the bare-URL-scan results (first-occurrence order kept, anchors
scanned first); no url of either scan is lost; and a url that occurs
among the anchor results is returned with its anchor-derived pair, so the
anchor label wins over a bare-URL label. -/
theorem c5_extract_links_spec (text : Str) :
    ((extract_links text).map Prod.snd).Nodup ∧
    (∀ p ∈ extract_links text, is_blocked_url p.2 = false) ∧
    (extract_links text).Sublist
      (anchorPhase (unescapePy text) ++ barePhase (unescapePy text)) ∧
    (∀ u, u ∈ (anchorPhase (unescapePy text) ++ barePhase (unescapePy text)).map Prod.snd →
      u ∈ (extract_links text).map Prod.snd) ∧
    (∀ p ∈ extract_links text,
      p.2 ∈ (anchorPhase (unescapePy text)).map Prod.snd →
      p ∈ anchorPhase (unescapePy text)) := by
  have hun : extract_links text =
      dedupGo [] (anchorPhase (unescapePy text) ++ barePhase (unescapePy text)) := rfl
  rw [hun]
  refine ⟨dedupGo_nodup _ [], ?_, dedupGo_sublist _ [], ?_, ?_⟩
  · intro p hp
    have hmem : p ∈ anchorPhase (unescapePy text) ++ barePhase (unescapePy text) :=
      (dedupGo_sublist _ []).subset hp
    rcases List.mem_append.1 hmem with ha | hb
    · exact anchorPhase_not_blocked _ p ha
    · exact barePhase_not_blocked _ p hb
  · intro u hu
    exact dedupGo_complete _ [] u hu (List.not_mem_nil u)
  · intro p hp hu
    have hfind := dedupGo_find _ [] p hp
    have hsomeA : (List.find? (fun q => decide (q.2 = p.2))
        (anchorPhase (unescapePy text))).isSome := by
      rw [List.find?_isSome]
      obtain ⟨q, hq, hqu⟩ := List.mem_map.1 hu
      exact ⟨q, hq, by simp [hqu]⟩
    rw [List.find?_append] at hfind
    obtain ⟨q, hq⟩ := Option.isSome_iff_exists.1 hsomeA
    rw [hq, Option.or_some] at hfind
    cases hfind
    exact List.mem_of_find?_eq_some hq

/-- Witness for C5 on a description carrying the same url both as an
anchor and as a bare URL: the anchor pair is the one returned. -/
theorem c5_extract_links_spec_witness :
    ((strOf "Lab", strOf "https://ex.com/a") ∈
      extract_links (strOf "<a href=\x22https://ex.com/a\x22>Lab</a> https://ex.com/a")) ∧
    (strOf "https://ex.com/a") ∈
      (anchorPhase (unescapePy
        (strOf "<a href=\x22https://ex.com/a\x22>Lab</a> https://ex.com/a"))).map Prod.snd ∧
    (strOf "Lab", strOf "https://ex.com/a") ∈
      anchorPhase (unescapePy
        (strOf "<a href=\x22https://ex.com/a\x22>Lab</a> https://ex.com/a")) ∧
    is_blocked_url (strOf "https://ex.com/a") = false := by
  refine ⟨by decide, by decide, ?_, ?_⟩
  · exact (c5_extract_links_spec
      (strOf "<a href=\x22https://ex.com/a\x22>Lab</a> https://ex.com/a")).2.2.2.2
      (strOf "Lab", strOf "https://ex.com/a") (by decide) (by decide)
  · exact (c5_extract_links_spec
      (strOf "<a href=\x22https://ex.com/a\x22>Lab</a> https://ex.com/a")).2.1
      (strOf "Lab", strOf "https://ex.com/a") (by decide)

/-! ## More trim lemmas (for the pagination claims) -/

lemma dropWhile_idem (p : Char → Bool) : ∀ l : Str, (l.dropWhile p).dropWhile p = l.dropWhile p := by
  intro l
  induction l with
  | nil => rfl
  | cons a rest ih =>
    by_cases ha : p a = true
    · rw [List.dropWhile_cons_of_pos ha, ih]
    · rw [List.dropWhile_cons_of_neg (by simp [ha]), List.dropWhile_cons_of_neg (by simp [ha])]

lemma ltrim_idem (s : Str) : ltrim (ltrim s) = ltrim s := dropWhile_idem isWs s

lemma rtrim_idem (s : Str) : rtrim (rtrim s) = rtrim s := by
  unfold rtrim
  rw [List.reverse_reverse, dropWhile_idem]

lemma rtrim_of_rtrim_fixed_suffix (v l' : Str) (hv : rtrim v = v) (hs : l' <:+ v) :
    rtrim l' = l' := by
  cases hl' : l'.reverse with
  | nil =>
    have : l' = [] := by simpa using congrArg List.reverse hl'
    rw [this]
    rfl
  | cons c rest =>
    have hcv : isWs c = false := by
      obtain ⟨pre, hpre⟩ := hs
      have hvrev : v.reverse = c :: (rest ++ pre.reverse) := by
        rw [← hpre, List.reverse_append, hl']
        rfl
      have hvdrop := dropWhile_eq_self_of_reverse v hv
      rw [hvrev] at hvdrop
      by_cases hc : isWs c = true
      · rw [List.dropWhile_cons_of_pos hc] at hvdrop
        have hlen := congrArg List.length hvdrop
        rw [List.length_cons] at hlen
        have h2 := ((rest ++ pre.reverse).dropWhile_suffix isWs).sublist.length_le
        omega
      · simpa using hc
    unfold rtrim
    rw [hl', List.dropWhile_cons_of_neg (by simp [hcv]), ← hl', List.reverse_reverse]

lemma rtrim_trim (s : Str) : rtrim (trim s) = trim s := by
  unfold trim
  exact rtrim_of_rtrim_fixed_suffix (rtrim s) (ltrim (rtrim s)) (rtrim_idem s)
    (ltrim_suffix (rtrim s))

lemma trim_trim (s : Str) : trim (trim s) = trim s := by
  conv_lhs => rw [trim, rtrim_trim]
  show ltrim (ltrim (rtrim s)) = trim s
  rw [ltrim_idem]
  rfl

lemma trim_seed (header : Str) :
    trim (trim header ++ ['\n', '\n']) = trim header := by
  show ltrim (rtrim (trim header ++ ['\n', '\n'])) = trim header
  rw [rtrim_append_ws (trim header) ['\n', '\n'] (by decide), rtrim_trim]
  show ltrim (ltrim (rtrim header)) = trim header
  rw [ltrim_idem]
  rfl

lemma rtrim_seed (header : Str) :
    rtrim (trim header ++ ['\n', '\n']) = trim header := by
  rw [rtrim_append_ws (trim header) ['\n', '\n'] (by decide), rtrim_trim]

/-! ## The pagination fold invariants -/

def maxBlockLen (blocks : List Str) : Nat :=
  blocks.foldr (fun b acc => max b.length acc) 0

lemma le_maxBlockLen : ∀ (blocks : List Str) (b : Str), b ∈ blocks →
    b.length ≤ maxBlockLen blocks := by
  intro blocks
  induction blocks with
  | nil => intro b hb; simp at hb
  | cons x rest ih =>
    intro b hb
    rcases List.mem_cons.1 hb with rfl | hmem
    · exact le_max_left _ _
    · exact le_trans (ih b hmem) (le_max_right _ _)

lemma split_fold_bound (header : Str) (B : Nat) (hB : SAFE_LIMIT ≤ B) :
    ∀ (blocks : List Str) (acc : List Str) (cur : Str),
      (∀ b ∈ blocks, (trim header).length + b.length + 3 ≤ B) →
      (∀ m ∈ acc, m.length ≤ B) → cur.length ≤ B →
      (∀ m ∈ (blocks.foldl (splitStep header) (acc, cur)).1, m.length ≤ B) ∧
      (blocks.foldl (splitStep header) (acc, cur)).2.length ≤ B := by
  intro blocks
  induction blocks with
  | nil => intro acc cur _ hacc hcur; exact ⟨hacc, hcur⟩
  | cons b rest ih =>
    intro acc cur hb hacc hcur
    rw [List.foldl_cons]
    by_cases hc : SAFE_LIMIT < cur.length + b.length + 1
    · rw [show splitStep header (acc, cur) b =
          (acc ++ [rtrim cur], (trim header ++ ['\n', '\n']) ++ b ++ ['\n']) by
        unfold splitStep; rw [if_pos hc]]
      apply ih
      · intro b' hb'; exact hb b' (List.mem_cons_of_mem _ hb')
      · intro m hm
        rcases List.mem_append.1 hm with h1 | h2
        · exact hacc m h1
        · rw [List.mem_singleton.1 h2]
          exact le_trans (rtrim_length_le cur) hcur
      · have hble := hb b (List.mem_cons_self _ _)
        simp only [List.length_append, List.length_cons, List.length_nil]
        omega
    · rw [show splitStep header (acc, cur) b = (acc, cur ++ b ++ ['\n']) by
        unfold splitStep; rw [if_neg hc]]
      apply ih
      · intro b' hb'; exact hb b' (List.mem_cons_of_mem _ hb')
      · exact hacc
      · simp only [List.length_append, List.length_cons, List.length_nil]
        omega

lemma split_fold_prefix (header : Str) :
    ∀ (blocks : List Str) (acc : List Str) (cur : Str),
      (∀ m ∈ acc, startsW (trim header) m = true) →
      startsW (trim header) cur = true →
      (∀ m ∈ (blocks.foldl (splitStep header) (acc, cur)).1,
        startsW (trim header) m = true) ∧
      startsW (trim header) (blocks.foldl (splitStep header) (acc, cur)).2 = true := by
  intro blocks
  induction blocks with
  | nil => intro acc cur hacc hcur; exact ⟨hacc, hcur⟩
  | cons b rest ih =>
    intro acc cur hacc hcur
    rw [List.foldl_cons]
    by_cases hc : SAFE_LIMIT < cur.length + b.length + 1
    · rw [show splitStep header (acc, cur) b =
          (acc ++ [rtrim cur], (trim header ++ ['\n', '\n']) ++ b ++ ['\n']) by
        unfold splitStep; rw [if_pos hc]]
      apply ih
      · intro m hm
        rcases List.mem_append.1 hm with h1 | h2
        · exact hacc m h1
        · rw [List.mem_singleton.1 h2]
          exact startsW_rtrim (trim header) cur (rtrim_trim header) hcur
      · exact (startsW_iff (trim header) _).2 ⟨['\n', '\n'] ++ b ++ ['\n'], by simp⟩
    · rw [show splitStep header (acc, cur) b = (acc, cur ++ b ++ ['\n']) by
        unfold splitStep; rw [if_neg hc]]
      apply ih
      · exact hacc
      · obtain ⟨t, rfl⟩ := (startsW_iff (trim header) cur).1 hcur
        exact (startsW_iff (trim header) _).2 ⟨t ++ (b ++ ['\n']), by simp⟩

/-- Every message of `split_into_messages` starts with the trimmed
header. -/
lemma split_messages_startsW (blocks : List Str) (header : Str) :
    ∀ m ∈ split_into_messages blocks header, startsW (trim header) m = true := by
  intro m hm
  unfold split_into_messages at hm
  have hfold := split_fold_prefix header blocks [] (trim header ++ ['\n', '\n'])
    (by intro m hm'; simp at hm') (startsW_append (trim header) _)
  by_cases hne : trim (blocks.foldl (splitStep header) ([], trim header ++ ['\n', '\n'])).2 ≠ []
  · rw [if_pos hne] at hm
    rcases List.mem_append.1 hm with h1 | h2
    · exact hfold.1 m h1
    · rw [List.mem_singleton.1 h2]
      exact startsW_rtrim (trim header) _ (rtrim_trim header) hfold.2
  · rw [if_neg hne] at hm
    exact hfold.1 m hm

/-! ## Lemmas about `replace1` and `relabelGo` -/

lemma replace1_length_le (pat suf : Str) :
    ∀ s : Str, (replace1 s pat (pat ++ suf)).length ≤ s.length + suf.length := by
  intro s
  unfold replace1
  by_cases hp : pat = []
  · rw [if_pos hp, hp]
    simp [Nat.add_comm]
  · rw [if_neg hp]
    induction s with
    | nil => simp [replace1Go]
    | cons c rest ih =>
      unfold replace1Go
      by_cases hs : startsW pat (c :: rest) = true
      · rw [if_pos hs]
        obtain ⟨t, ht⟩ := (startsW_iff pat (c :: rest)).1 hs
        rw [ht, List.drop_left]
        simp only [List.length_append]
        omega
      · rw [if_neg hs]
        simp only [List.length_cons]
        omega

lemma replace1_of_startsW (s pat rep : Str) (hs : startsW pat s = true) :
    replace1 s pat rep = rep ++ s.drop pat.length := by
  unfold replace1
  by_cases hp : pat = []
  · rw [if_pos hp, hp]
    simp
  · rw [if_neg hp]
    obtain ⟨t, rfl⟩ := (startsW_iff pat s).1 hs
    cases pat with
    | nil => exact absurd rfl hp
    | cons pc pcs =>
      rw [List.cons_append]
      simp only [replace1Go]
      rw [if_pos (by rw [← List.cons_append]; exact startsW_append (pc :: pcs) t)]

lemma relabelGo_length (header : Str) (total : Nat) :
    ∀ (msgs : List Str) (i : Nat), (relabelGo header total i msgs).length = msgs.length := by
  intro msgs
  induction msgs with
  | nil => intro i; rfl
  | cons m rest ih =>
    intro i
    simp only [relabelGo, List.length_cons, ih]

lemma relabelGo_get (header : Str) (total : Nat) :
    ∀ (msgs : List Str) (i j : Nat) (hj : j < (relabelGo header total i msgs).length)
      (hj' : j < msgs.length),
      (relabelGo header total i msgs).get ⟨j, hj⟩ =
        replace1 (msgs.get ⟨j, hj'⟩) header (header ++ partSuffix (i + j) total) := by
  intro msgs
  induction msgs with
  | nil => intro i j hj hj'; simp at hj'
  | cons m rest ih =>
    intro i j hj hj'
    cases j with
    | zero => simp [relabelGo]
    | succ k =>
      have hk : k < (relabelGo header total (i + 1) rest).length := by
        simpa [relabelGo] using hj
      have hk' : k < rest.length := by simpa using hj'
      show (relabelGo header total (i + 1) rest).get ⟨k, hk⟩ = _
      rw [ih (i + 1) k hk hk']
      have : i + 1 + k = i + (k + 1) := by omega
      rw [this]
      rfl

/-! ## Claim C1 -/

/-- C1 (amended): every message of `split_into_messages` has length at
most `max SAFE_LIMIT (len (trimmed header) + max block length + 3)`: a
message can exceed SAFE_LIMIT only when the trimmed header together with
a single block and the three separator characters exceeds it, not only
when a block alone does.  The part-label rewriting of `main` can add
at most the length of the part suffix on top of that bound (second
conjunct, about the final messages). -/
theorem c1_split_length_bound (blocks : List Str) (header : Str) :
    (∀ m ∈ split_into_messages blocks header,
      m.length ≤ max SAFE_LIMIT ((trim header).length + maxBlockLen blocks + 3)) ∧
    (∀ i (hi : i < (final_messages blocks header).length),
      ((final_messages blocks header).get ⟨i, hi⟩).length ≤
        max SAFE_LIMIT ((trim header).length + maxBlockLen blocks + 3) +
          (partSuffix i (split_into_messages blocks header).length).length) := by
  have hA : ∀ m ∈ split_into_messages blocks header,
      m.length ≤ max SAFE_LIMIT ((trim header).length + maxBlockLen blocks + 3) := by
    intro m hm
    unfold split_into_messages at hm
    have hfold := split_fold_bound header
      (max SAFE_LIMIT ((trim header).length + maxBlockLen blocks + 3))
      (le_max_left _ _) blocks [] (trim header ++ ['\n', '\n'])
      (by
        intro b hb
        have := le_maxBlockLen blocks b hb
        have h2 : (trim header).length + b.length + 3 ≤
            (trim header).length + maxBlockLen blocks + 3 := by omega
        exact le_trans h2 (le_max_right _ _))
      (by intro m hm'; simp at hm')
      (by
        have h2 : (trim header ++ ['\n', '\n']).length =
            (trim header).length + 2 := by simp
        rw [h2]
        exact le_trans (by omega) (le_max_right SAFE_LIMIT _))
    by_cases hne : trim (blocks.foldl (splitStep header)
        ([], trim header ++ ['\n', '\n'])).2 ≠ []
    · rw [if_pos hne] at hm
      rcases List.mem_append.1 hm with h1 | h2
      · exact hfold.1 m h1
      · rw [List.mem_singleton.1 h2]
        exact le_trans (rtrim_length_le _) hfold.2
    · rw [if_neg hne] at hm
      exact hfold.1 m hm
  refine ⟨hA, ?_⟩
  have hfm : final_messages blocks header =
      (if 1 < (split_into_messages blocks header).length then
        relabelGo header (split_into_messages blocks header).length 0
          (split_into_messages blocks header)
      else split_into_messages blocks header) := rfl
  rw [hfm]
  by_cases hlen : 1 < (split_into_messages blocks header).length
  · rw [if_pos hlen]
    intro i hi
    have hi' : i < (split_into_messages blocks header).length := by
      rw [← relabelGo_length header (split_into_messages blocks header).length
        (split_into_messages blocks header) 0]
      exact hi
    rw [relabelGo_get header (split_into_messages blocks header).length
      (split_into_messages blocks header) 0 i hi hi']
    have hrep := replace1_length_le header
      (partSuffix (0 + i) (split_into_messages blocks header).length)
      ((split_into_messages blocks header).get ⟨i, hi'⟩)
    have hmem := hA ((split_into_messages blocks header).get ⟨i, hi'⟩)
      (List.get_mem _ _ _)
    rw [Nat.zero_add] at hrep ⊢
    exact le_trans hrep (Nat.add_le_add_right hmem _)
  · rw [if_neg hlen]
    intro i hi
    have hmem := hA ((split_into_messages blocks header).get ⟨i, hi⟩)
      (List.get_mem _ _ _)
    exact le_trans hmem (Nat.le_add_right _ _)

/-- Witness for C1's bound on a small concrete input. -/
theorem c1_split_length_bound_witness :
    (strOf "H\n\nb") ∈ split_into_messages [strOf "b"] (strOf "H") ∧
    (strOf "H\n\nb").length ≤
      max SAFE_LIMIT ((trim (strOf "H")).length + maxBlockLen [strOf "b"] + 3) :=
  ⟨by decide,
    (c1_split_length_bound [strOf "b"] (strOf "H")).1 (strOf "H\n\nb") (by decide)⟩

/-! ## Concrete large-input computations for the pagination claims -/

lemma dropWhile_replicate_not (p : Char → Bool) (c : Char) (hc : p c = false) :
    ∀ n, (List.replicate n c).dropWhile p = List.replicate n c := by
  intro n
  cases n with
  | zero => simp
  | succ k =>
    rw [List.replicate_succ, List.dropWhile_cons_of_neg (by simp [hc])]

lemma rtrim_replicate (n : Nat) (c : Char) (hc : isWs c = false) :
    rtrim (List.replicate n c) = List.replicate n c := by
  unfold rtrim
  rw [List.reverse_replicate, dropWhile_replicate_not isWs c hc, List.reverse_replicate]

lemma trim_replicate (n : Nat) (c : Char) (hc : isWs c = false) :
    trim (List.replicate n c) = List.replicate n c := by
  show ltrim (rtrim (List.replicate n c)) = _
  rw [rtrim_replicate n c hc]
  exact dropWhile_replicate_not isWs c hc n

lemma rtrim_append_last_not (l : Str) (c : Char) (hc : isWs c = false) :
    rtrim (l ++ [c]) = l ++ [c] := by
  unfold rtrim
  rw [List.reverse_append]
  show ((c :: l.reverse).dropWhile isWs).reverse = l ++ [c]
  rw [List.dropWhile_cons_of_neg (by simp [hc])]
  simp

/-- One block that does not fit on the seeded buffer yields a header-only
message and an oversized second message. -/
lemma split_single_block_overflow (blk header : Str)
    (hover : SAFE_LIMIT < (trim header ++ ['\n', '\n']).length + blk.length + 1)
    (hne : trim ((trim header ++ ['\n', '\n']) ++ blk ++ ['\n']) ≠ []) :
    split_into_messages [blk] header =
      [rtrim (trim header ++ ['\n', '\n']),
       rtrim ((trim header ++ ['\n', '\n']) ++ blk ++ ['\n'])] := by
  simp only [split_into_messages, List.foldl_cons, List.foldl_nil]
  rw [show splitStep header ([], trim header ++ ['\n', '\n']) blk =
      ([rtrim (trim header ++ ['\n', '\n'])],
       (trim header ++ ['\n', '\n']) ++ blk ++ ['\n']) from by
    unfold splitStep
    rw [if_pos hover]
    simp]
  rw [if_pos hne]
  rfl

/-- C1 (counterexample): with a 1849-character header and the single
one-character block `"b"`, no block exceeds the safe limit, yet the
second produced message has 1852 characters, over SAFE_LIMIT = 1850: the
claim's exception clause ("a single input block by itself exceeds the
safe limit") does not cover it. -/
theorem c1_counterexample :
    split_into_messages [['b']] (List.replicate 1849 'a') =
      [List.replicate 1849 'a', List.replicate 1849 'a' ++ ['\n', '\n', 'b']] ∧
    (['b'] : Str).length ≤ SAFE_LIMIT ∧
    SAFE_LIMIT < (List.replicate 1849 'a' ++ ['\n', '\n', 'b']).length := by
  have htrim : trim (List.replicate 1849 'a') = List.replicate 1849 'a' :=
    trim_replicate 1849 'a' (by decide)
  refine ⟨?_, by decide, ?_⟩
  · have hover : SAFE_LIMIT <
        (trim (List.replicate 1849 'a') ++ ['\n', '\n']).length + (['b'] : Str).length + 1 := by
      rw [htrim]
      simp only [List.length_append, List.length_replicate, List.length_cons,
        List.length_nil, SAFE_LIMIT]
      omega
    have hne : trim ((trim (List.replicate 1849 'a') ++ ['\n', '\n']) ++ ['b'] ++ ['\n']) ≠ [] := by
      intro habs
      have hmem0 : 'a' ∈ List.replicate 1849 'a' :=
        List.mem_replicate.2 ⟨by decide, rfl⟩
      have hmem : 'a' ∈ (trim (List.replicate 1849 'a') ++ ['\n', '\n']) ++ ['b'] ++ ['\n'] := by
        rw [htrim]
        exact List.mem_append.2 (Or.inl (List.mem_append.2 (Or.inl
          (List.mem_append.2 (Or.inl hmem0)))))
      have := all_ws_of_trim_eq_nil _ habs 'a' hmem
      simp [isWs] at this
    rw [split_single_block_overflow ['b'] (List.replicate 1849 'a') hover hne]
    rw [rtrim_seed, htrim]
    rw [rtrim_append_ws ((List.replicate 1849 'a' ++ ['\n', '\n']) ++ ['b']) ['\n'] (by decide),
      rtrim_append_last_not _ 'b' (by decide)]
    simp
  · simp only [List.length_append, List.length_replicate, List.length_cons,
      List.length_nil, SAFE_LIMIT]
    omega

/-! ## Claim C9 -/

/-- C9 (counterexample): with a whitespace-only header and no blocks, the
paginator returns no message at all (the final `if current.strip()` guard
drops the buffer), not one message consisting of the trimmed header. -/
theorem c9_counterexample :
    split_into_messages [] [' '] = [] ∧ trim [' '] = [] :=
  ⟨rfl, rfl⟩

/-- C9 (amended): provided the trimmed header is non-empty, paginating an
empty block sequence yields exactly one message, the trimmed header
alone, and the output is non-empty for every block sequence; with no
proviso, every produced message starts with the trimmed header. -/
theorem c9_paginator_header (header : Str) (blocks : List Str) :
    (trim header ≠ [] →
      split_into_messages [] header = [trim header] ∧
      split_into_messages blocks header ≠ []) ∧
    (∀ m ∈ split_into_messages blocks header, startsW (trim header) m = true) := by
  constructor
  · intro hne
    constructor
    · have h1 : split_into_messages [] header =
          (if trim (trim header ++ ['\n', '\n']) ≠ [] then
            ([] : List Str) ++ [rtrim (trim header ++ ['\n', '\n'])]
          else []) := rfl
      rw [h1]
      simp only [trim_seed, rtrim_seed]
      rw [if_pos hne]
      simp
    · have hfold := split_fold_prefix header blocks [] (trim header ++ ['\n', '\n'])
        (by intro m hm; simp at hm) (startsW_append (trim header) _)
      have hnec : trim (blocks.foldl (splitStep header)
          ([], trim header ++ ['\n', '\n'])).2 ≠ [] :=
        trim_ne_nil_of_startsW (trim header) _ hne (trim_head_not_ws header) hfold.2
      have h0 : split_into_messages blocks header =
          (if trim (blocks.foldl (splitStep header)
              ([], trim header ++ ['\n', '\n'])).2 ≠ [] then
            (blocks.foldl (splitStep header) ([], trim header ++ ['\n', '\n'])).1 ++
              [rtrim (blocks.foldl (splitStep header)
                ([], trim header ++ ['\n', '\n'])).2]
          else (blocks.foldl (splitStep header) ([], trim header ++ ['\n', '\n'])).1) := rfl
      rw [h0, if_pos hnec]
      simp
  · exact split_messages_startsW blocks header

/-- Witness for C9 at a one-character header and one block. -/
theorem c9_paginator_header_witness :
    trim (strOf "H") ≠ [] ∧
    split_into_messages [] (strOf "H") = [trim (strOf "H")] ∧
    split_into_messages [strOf "b"] (strOf "H") ≠ [] ∧
    startsW (trim (strOf "H")) (strOf "H\n\nb") = true := by
  refine ⟨by decide, ?_, ?_, ?_⟩
  · exact ((c9_paginator_header (strOf "H") [strOf "b"]).1 (by decide)).1
  · exact ((c9_paginator_header (strOf "H") [strOf "b"]).1 (by decide)).2
  · exact (c9_paginator_header (strOf "H") [strOf "b"]).2 (strOf "H\n\nb") (by decide)

/-! ## Claim C7 -/

lemma rtrim_append_replicate (l : Str) (n : Nat) (c : Char) (hc : isWs c = false)
    (hn : n ≠ 0) : rtrim (l ++ List.replicate n c) = l ++ List.replicate n c := by
  cases n with
  | zero => exact absurd rfl hn
  | succ k =>
    unfold rtrim
    rw [List.reverse_append, List.reverse_replicate, List.replicate_succ, List.cons_append,
      List.dropWhile_cons_of_neg (by simp [hc])]
    simp only [List.reverse_cons, List.reverse_append, List.reverse_replicate,
      List.reverse_reverse, List.append_assoc]
    rw [← List.replicate_succ', ← List.replicate_succ]

/-- A 1851-character block forces two messages for any header trimming to
`"H"`. -/
lemma split_big (header : Str) (htr : trim header = ['H']) :
    split_into_messages [List.replicate 1851 'x'] header =
      [['H'], (['H'] ++ ['\n', '\n']) ++ List.replicate 1851 'x'] := by
  have hover : SAFE_LIMIT <
      (trim header ++ ['\n', '\n']).length + (List.replicate 1851 'x').length + 1 := by
    rw [htr]
    simp only [List.length_append, List.length_replicate, List.length_cons,
      List.length_nil, SAFE_LIMIT]
    omega
  have hne : trim ((trim header ++ ['\n', '\n']) ++ List.replicate 1851 'x' ++ ['\n']) ≠ [] := by
    intro habs
    have hmem : 'H' ∈ (trim header ++ ['\n', '\n']) ++ List.replicate 1851 'x' ++ ['\n'] := by
      rw [htr]
      exact List.mem_append.2 (Or.inl (List.mem_append.2 (Or.inl (by decide))))
    have := all_ws_of_trim_eq_nil _ habs 'H' hmem
    simp [isWs] at this
  rw [split_single_block_overflow (List.replicate 1851 'x') header hover hne]
  rw [rtrim_seed, htr]
  rw [rtrim_append_ws ((['H'] ++ ['\n', '\n']) ++ List.replicate 1851 'x') ['\n'] (by decide),
    rtrim_append_replicate (['H'] ++ ['\n', '\n']) 1851 'x' (by decide) (by decide)]

/-- C7 (counterexample): the rewrite looks for the raw, untrimmed header
inside each message, but messages are built from the trimmed header; with
header `"H "` (trailing blank) and a block that forces two messages, the
first final message is `"H"` and carries no `"(Part"` label at all. -/
theorem c7_counterexample :
    1 < (split_into_messages [List.replicate 1851 'x'] ['H', ' ']).length ∧
    (final_messages [List.replicate 1851 'x'] ['H', ' ']).head? = some ['H'] ∧
    containsSub ['H'] (strOf "(Part") = false := by
  have hsp := split_big ['H', ' '] (by decide)
  refine ⟨by rw [hsp]; simp, ?_, by decide⟩
  have hfm : final_messages [List.replicate 1851 'x'] ['H', ' '] =
      (if 1 < (split_into_messages [List.replicate 1851 'x'] ['H', ' ']).length then
        relabelGo ['H', ' ']
          (split_into_messages [List.replicate 1851 'x'] ['H', ' ']).length 0
          (split_into_messages [List.replicate 1851 'x'] ['H', ' '])
      else split_into_messages [List.replicate 1851 'x'] ['H', ' ']) := rfl
  rw [hfm, hsp, if_pos (by simp)]
  have hrep : ∀ r : Str, replace1 ['H'] ['H', ' '] r = ['H'] := by
    intro r
    simp [replace1, replace1Go, startsW]
  simp only [relabelGo, List.head?_cons, hrep]

/-- C7 (amended): when the header is already trimmed (`header.strip() ==
header`), the rewrite does fire: with more than one message every final
message is the header followed by its `" *(Part i/total)*"` suffix (i its
1-based position, total the message count) and then the rest of the
message; with at most one message nothing is rewritten.  (For an
untrimmed header the rewrite can miss, see the counterexample.) -/
theorem c7_part_labels (blocks : List Str) (header : Str) (hh : trim header = header) :
    ((split_into_messages blocks header).length ≤ 1 →
      final_messages blocks header = split_into_messages blocks header) ∧
    (1 < (split_into_messages blocks header).length →
      ∀ i (hi : i < (final_messages blocks header).length),
        ∃ rest, (final_messages blocks header).get ⟨i, hi⟩ =
          header ++ partSuffix i (split_into_messages blocks header).length ++ rest) := by
  have hfm : final_messages blocks header =
      (if 1 < (split_into_messages blocks header).length then
        relabelGo header (split_into_messages blocks header).length 0
          (split_into_messages blocks header)
      else split_into_messages blocks header) := rfl
  constructor
  · intro hle
    rw [hfm, if_neg (by omega)]
  · intro hgt
    rw [hfm, if_pos hgt]
    intro i hi
    have hi' : i < (split_into_messages blocks header).length := by
      rw [← relabelGo_length header (split_into_messages blocks header).length
        (split_into_messages blocks header) 0]
      exact hi
    rw [relabelGo_get header (split_into_messages blocks header).length
      (split_into_messages blocks header) 0 i hi hi', Nat.zero_add]
    have hpref : startsW header ((split_into_messages blocks header).get ⟨i, hi'⟩) = true := by
      have := split_messages_startsW blocks header
        ((split_into_messages blocks header).get ⟨i, hi'⟩) (List.get_mem _ _ _)
      rwa [hh] at this
    rw [replace1_of_startsW _ header _ hpref]
    exact ⟨_, rfl⟩

lemma c7_final_len_pos : 0 < (final_messages [List.replicate 1851 'x'] ['H']).length := by
  have hfm : final_messages [List.replicate 1851 'x'] ['H'] =
      (if 1 < (split_into_messages [List.replicate 1851 'x'] ['H']).length then
        relabelGo ['H'] (split_into_messages [List.replicate 1851 'x'] ['H']).length 0
          (split_into_messages [List.replicate 1851 'x'] ['H'])
      else split_into_messages [List.replicate 1851 'x'] ['H']) := rfl
  rw [hfm, split_big ['H'] (by decide), if_pos (by simp)]
  simp [relabelGo]

/-- Witness for C7 with the trimmed header `"H"` and a block forcing two
messages: the first final message carries the `Part 1/2` suffix. -/
theorem c7_part_labels_witness :
    trim ['H'] = ['H'] ∧
    1 < (split_into_messages [List.replicate 1851 'x'] ['H']).length ∧
    ∃ rest, (final_messages [List.replicate 1851 'x'] ['H']).get ⟨0, c7_final_len_pos⟩ =
      ['H'] ++ partSuffix 0 (split_into_messages [List.replicate 1851 'x'] ['H']).length ++ rest := by
  have hgt : 1 < (split_into_messages [List.replicate 1851 'x'] ['H']).length := by
    rw [split_big ['H'] (by decide)]
    simp
  exact ⟨by decide, hgt,
    (c7_part_labels [List.replicate 1851 'x'] ['H'] (by decide)).2 hgt 0 c7_final_len_pos⟩

/-! ## Claim C8: stage identities on markup-free text -/

lemma containsSub_eq_false_of_not_mem (c : Char) (pcs : Str) :
    ∀ s : Str, c ∉ s → containsSub s (c :: pcs) = false := by
  intro s
  induction s with
  | nil => intro _; rfl
  | cons d rest ih =>
    intro hmem
    rw [containsSub_cons, Bool.or_eq_false_iff]
    refine ⟨?_, ih (fun h => hmem (List.mem_cons_of_mem _ h))⟩
    have hcd : c ≠ d := fun h => hmem (h ▸ List.mem_cons_self _ _)
    show (decide (c = d) && startsW pcs rest) = false
    simp [hcd]

lemma regexSub_id (m : Str → Option (Str × Str)) (trig : Char)
    (hm : ∀ c rest, c ≠ trig → m (c :: rest) = none) :
    ∀ (fuel : Nat) (s : Str), (∀ c ∈ s, c ≠ trig) → regexSub m fuel s = s := by
  intro fuel
  induction fuel with
  | zero => intro s _; cases s <;> rfl
  | succ n ih =>
    intro s hs
    cases s with
    | nil => rfl
    | cons c rest =>
      have hc : c ≠ trig := hs c (List.mem_cons_self _ _)
      simp only [regexSub, hm c rest hc]
      rw [ih rest (fun x hx => hs x (List.mem_cons_of_mem _ hx))]

lemma matchEntityAt_trigger (c : Char) (rest : Str) (hc : c ≠ '&') :
    matchEntityAt (c :: rest) = none := by
  unfold matchEntityAt
  split
  next heq =>
    exfalso
    apply hc
    have := congrArg (fun l => List.head? l) heq
    simpa using this
  next => rfl

lemma matchBrAt_trigger (c : Char) (rest : Str) (hc : c ≠ '<') :
    matchBrAt (c :: rest) = none := by
  unfold matchBrAt
  split
  next heq =>
    exfalso
    apply hc
    have := congrArg (fun l => List.head? l) heq
    simpa using this
  next => rfl

lemma matchBoldAt_trigger (c : Char) (rest : Str) (hc : c ≠ '<') :
    matchBoldAt (c :: rest) = none := by
  unfold matchBoldAt
  split
  next heq =>
    exfalso
    apply hc
    have := congrArg (fun l => List.head? l) heq
    simpa using this
  next => rfl

lemma matchACloseAt_trigger (c : Char) (rest : Str) (hc : c ≠ '<') :
    matchACloseAt (c :: rest) = none := by
  unfold matchACloseAt
  split
  next heq =>
    exfalso
    apply hc
    have := congrArg (fun l => List.head? l) heq
    simpa using this
  next => rfl

lemma matchTagAt_trigger (c : Char) (rest : Str) (hc : c ≠ '<') :
    matchTagAt (c :: rest) = none := by
  unfold matchTagAt
  split
  next heq =>
    exfalso
    apply hc
    have := congrArg (fun l => List.head? l) heq
    simpa using this
  next => rfl

lemma matchAOpenAt_trigger (c : Char) (rest : Str) (hc : c ≠ '<') :
    matchAOpenAt (c :: rest) = none := by
  unfold matchAOpenAt
  split
  next heq =>
    exfalso
    apply hc
    have := congrArg (fun l => List.head? l) heq
    simpa using this
  next => rfl

/-- Markup-free, entity-free, escape-free text: the precondition of the
idempotence claim. -/
def cleanText (s : Str) : Prop :=
  ∀ c ∈ s, c ≠ '<' ∧ c ≠ '&' ∧ c ≠ '\x5c'

lemma html_to_text_of_clean (x : Str) (hx : cleanText x) (hne : x ≠ []) :
    html_to_text x = cleanLines x := by
  have hbs : ∀ c ∈ x, c ≠ '\x5c' := fun c hc => (hx c hc).2.2
  have hlt : ∀ c ∈ x, c ≠ '<' := fun c hc => (hx c hc).1
  have hamp : ∀ c ∈ x, c ≠ '&' := fun c hc => (hx c hc).2.1
  have h1 : replaceAll x (strOf "\x5cn") ['\n'] = x :=
    replaceAll_of_not_contains _ _ _
      (containsSub_eq_false_of_not_mem '\x5c' ['n'] x (fun h => hbs '\x5c' h rfl))
  have h2 : replaceAll x (strOf "\x5c,") [','] = x :=
    replaceAll_of_not_contains _ _ _
      (containsSub_eq_false_of_not_mem '\x5c' [','] x (fun h => hbs '\x5c' h rfl))
  have h3 : unescapePy x = x :=
    regexSub_id matchEntityAt '&' (fun c r hc => matchEntityAt_trigger c r hc) x.length x hamp
  have h4 : subBr x = x :=
    regexSub_id matchBrAt '<' (fun c r hc => matchBrAt_trigger c r hc) x.length x hlt
  have h5 : subBold x = x :=
    regexSub_id matchBoldAt '<' (fun c r hc => matchBoldAt_trigger c r hc) x.length x hlt
  have h6 : subAOpen x = x :=
    regexSub_id matchAOpenAt '<' (fun c r hc => matchAOpenAt_trigger c r hc) x.length x hlt
  have h7 : subAClose x = x :=
    regexSub_id matchACloseAt '<' (fun c r hc => matchACloseAt_trigger c r hc) x.length x hlt
  have h8 : stripTags x = x :=
    regexSub_id matchTagAt '<' (fun c r hc => matchTagAt_trigger c r hc) x.length x hlt
  show (if x = [] then [] else
    cleanLines (stripTags (subAClose (subAOpen (subBold (subBr (unescapePy
      (replaceAll (replaceAll x (strOf "\x5cn") ['\n']) (strOf "\x5c,") [','])))))))) = cleanLines x
  rw [if_neg hne, h1, h2, h3, h4, h5, h6, h7, h8]

/-! ## Claim C8: the blank-run filter -/

/-- The blank-run filter of `cleanLines`, with the `cleaned == [] or
cleaned[-1] == ""` test tracked as a single flag (true when nothing was
kept yet or the last kept line is blank). -/
def dropB (prevBlank : Bool) : List Str → List Str
  | [] => []
  | ln :: rest =>
    if ln = [] ∧ prevBlank = true then dropB prevBlank rest
    else ln :: dropB (decide (ln = [])) rest

lemma dropBlank_foldl :
    ∀ (lines acc : List Str),
      lines.foldl
        (fun acc ln =>
          if ln = [] ∧ (acc = [] ∨ acc.getLast? = some []) then acc else acc ++ [ln]) acc =
      acc ++ dropB (decide (acc = [] ∨ acc.getLast? = some [])) lines := by
  intro lines
  induction lines with
  | nil => intro acc; simp [dropB]
  | cons ln rest ih =>
    intro acc
    rw [List.foldl_cons]
    by_cases hcond : ln = [] ∧ (acc = [] ∨ acc.getLast? = some [])
    · rw [if_pos hcond, ih acc]
      have hstep : dropB (decide (acc = [] ∨ acc.getLast? = some [])) (ln :: rest) =
          dropB (decide (acc = [] ∨ acc.getLast? = some [])) rest := by
        simp only [dropB]
        rw [if_pos ⟨hcond.1, decide_eq_true hcond.2⟩]
      rw [hstep]
    · rw [if_neg hcond, ih (acc ++ [ln])]
      have hflag : (decide ((acc ++ [ln]) = [] ∨ (acc ++ [ln]).getLast? = some [])) =
          decide (ln = []) := by
        rw [decide_eq_decide]
        constructor
        · rintro (h1 | h2)
          · exact absurd h1 (by simp)
          · rw [List.getLast?_concat] at h2
            exact Option.some.inj h2
        · intro h
          right
          rw [List.getLast?_concat, h]
      rw [hflag]
      have hd : dropB (decide (acc = [] ∨ acc.getLast? = some [])) (ln :: rest) =
          ln :: dropB (decide (ln = [])) rest := by
        simp only [dropB]
        rw [if_neg (fun hcon => hcond ⟨hcon.1, of_decide_eq_true hcon.2⟩)]
      rw [hd]
      simp

lemma dropB_subset : ∀ (l : List Str) (flag : Bool) (x : Str),
    x ∈ dropB flag l → x ∈ l := by
  intro l
  induction l with
  | nil => intro flag x hx; simp [dropB] at hx
  | cons ln rest ih =>
    intro flag x hx
    simp only [dropB] at hx
    by_cases hc : ln = [] ∧ flag = true
    · rw [if_pos hc] at hx
      exact List.mem_cons_of_mem _ (ih flag x hx)
    · rw [if_neg hc] at hx
      rcases List.mem_cons.1 hx with rfl | hmem
      · exact List.mem_cons_self _ _
      · exact List.mem_cons_of_mem _ (ih _ x hmem)

lemma dropB_head_chain :
    ∀ (l : List Str) (flag : Bool),
      (flag = true → ∀ h, (dropB flag l).head? = some h → h ≠ []) ∧
      List.Chain' (fun a b : Str => a = [] → b ≠ []) (dropB flag l) := by
  intro l
  induction l with
  | nil =>
    intro flag
    constructor
    · intro _ h hh; simp [dropB] at hh
    · simp [dropB]
  | cons ln rest ih =>
    intro flag
    simp only [dropB]
    by_cases hc : ln = [] ∧ flag = true
    · rw [if_pos hc]
      exact ih flag
    · rw [if_neg hc]
      have hln : flag = true → ln ≠ [] := fun hf hl => hc ⟨hl, hf⟩
      constructor
      · intro hf h hh
        rw [List.head?_cons] at hh
        rw [← Option.some.inj hh]
        exact hln hf
      · rw [List.chain'_cons']
        refine ⟨?_, (ih (decide (ln = []))).2⟩
        intro b hb hlnb
        exact (ih (decide (ln = []))).1 (decide_eq_true hlnb) b hb

lemma dropB_fixpoint :
    ∀ (l : List Str) (flag : Bool),
      List.Chain' (fun a b : Str => a = [] → b ≠ []) l →
      (flag = true → ∀ h, l.head? = some h → h ≠ []) → dropB flag l = l := by
  intro l
  induction l with
  | nil => intro flag _ _; rfl
  | cons ln rest ih =>
    intro flag hch hhd
    simp only [dropB]
    have hneg : ¬ (ln = [] ∧ flag = true) := by
      intro hcon
      exact (hhd hcon.2 ln rfl) hcon.1
    rw [if_neg hneg]
    congr 1
    apply ih
    · exact (List.chain'_cons'.1 hch).2
    · intro hf h hh
      exact (List.chain'_cons'.1 hch).1 h hh (of_decide_eq_true hf)

/-! Equations of `splitlinesGo` for each head shape. -/

set_option maxHeartbeats 1000000 in
lemma splitlinesGo_cons_nonbreak (cur : Str) (c : Char) (rest : Str)
    (hc : isLineBreak c = false) :
    splitlinesGo cur (c :: rest) = splitlinesGo (c :: cur) rest := by
  have hcr : c ≠ '\r' := by
    intro h; rw [h] at hc; simp [isLineBreak] at hc
  rw [splitlinesGo.eq_def]
  split
  · next heq => exact absurd heq (by simp)
  · next rest2 heq =>
    exfalso; apply hcr
    have := congrArg (fun l => List.head? l) heq
    simpa using this
  · rename_i heq
    injection heq with h1 h2
    subst h1
    subst h2
    rw [if_neg (by simp [hc])]

lemma splitlinesGo_cons_break (cur : Str) (c : Char) (rest : Str)
    (hc : isLineBreak c = true) (hcr : c ≠ '\r') :
    splitlinesGo cur (c :: rest) =
      cur.reverse :: (if rest = [] then [] else splitlinesGo [] rest) := by
  rw [splitlinesGo.eq_def]
  split
  · next heq => exact absurd heq (by simp)
  · next rest2 heq =>
    exfalso; apply hcr
    have := congrArg (fun l => List.head? l) heq
    simpa using this
  · rename_i heq
    injection heq with h1 h2
    subst h1
    subst h2
    rw [if_pos hc]

lemma splitlinesGo_crlf (cur rest2 : Str) :
    splitlinesGo cur ('\r' :: '\n' :: rest2) =
      cur.reverse :: (if rest2 = [] then [] else splitlinesGo [] rest2) := by
  rw [splitlinesGo.eq_def]
  split
  · next heq => exact absurd heq (by simp)
  · next rest2' heq =>
    injection heq with h1 h2
    injection h2 with h3 h4
    subst h4
    rfl
  · rename_i hno heq
    exfalso
    injection heq with h1 h2
    exact hno rest2 h1.symm h2.symm

lemma splitlinesGo_cr_nil (cur : Str) :
    splitlinesGo cur ['\r'] = [cur.reverse] := rfl

lemma splitlinesGo_cr (cur : Str) (c₂ : Char) (rest₂ : Str) (h2 : c₂ ≠ '\n') :
    splitlinesGo cur ('\r' :: c₂ :: rest₂) =
      cur.reverse :: splitlinesGo [] (c₂ :: rest₂) := by
  rw [splitlinesGo.eq_def]
  split
  · next heq => exact absurd heq (by simp)
  · next rest2 heq =>
    exfalso; apply h2
    have := congrArg (fun l => List.tail l) heq
    have h3 := congrArg (fun l => List.head? l) this
    simpa using h3
  · rename_i heq
    injection heq with h1 h2'
    subst h1
    subst h2'
    rw [if_pos (by simp [isLineBreak]), if_neg (by simp)]

/-- Characters of lines produced by the splitter come from the buffer or
the remaining input. -/
lemma splitlinesGo_sub :
    ∀ (n : Nat) (s : Str), s.length ≤ n → ∀ (cur l : Str),
      l ∈ splitlinesGo cur s → ∀ c ∈ l, c ∈ cur ∨ c ∈ s := by
  intro n
  induction n with
  | zero =>
    intro s hs cur l hl c hc
    have hnil : s = [] := List.eq_nil_of_length_eq_zero (Nat.le_zero.1 hs)
    subst hnil
    simp [splitlinesGo] at hl
    rw [hl] at hc
    exact Or.inl (List.mem_reverse.1 hc)
  | succ n ih =>
    intro s hs cur l hl c hc
    cases s with
    | nil =>
      simp [splitlinesGo] at hl
      rw [hl] at hc
      exact Or.inl (List.mem_reverse.1 hc)
    | cons a rest =>
      by_cases hbr : isLineBreak a = false
      · rw [splitlinesGo_cons_nonbreak cur a rest hbr] at hl
        rw [List.length_cons] at hs
        rcases ih rest (Nat.le_of_succ_le_succ hs) (a :: cur) l hl c hc with hin | hin
        · rcases List.mem_cons.1 hin with rfl | hin2
          · exact Or.inr (List.mem_cons_self _ _)
          · exact Or.inl hin2
        · exact Or.inr (List.mem_cons_of_mem _ hin)
      · rw [Bool.not_eq_false] at hbr
        by_cases hcr : a = '\r'
        · subst hcr
          cases rest with
          | nil =>
            rw [splitlinesGo_cr_nil] at hl
            simp at hl
            rw [hl] at hc
            exact Or.inl (List.mem_reverse.1 hc)
          | cons a₂ rest₂ =>
            by_cases h2 : a₂ = '\n'
            · subst h2
              rw [splitlinesGo_crlf] at hl
              rcases List.mem_cons.1 hl with rfl | hl2
              · exact Or.inl (List.mem_reverse.1 hc)
              · by_cases hr2 : rest₂ = []
                · rw [if_pos hr2] at hl2
                  simp at hl2
                · rw [if_neg hr2] at hl2
                  have hlen : rest₂.length ≤ n := by
                    simp only [List.length_cons] at hs
                    omega
                  rcases ih rest₂ hlen [] l hl2 c hc with hin | hin
                  · simp at hin
                  · exact Or.inr (List.mem_cons_of_mem _ (List.mem_cons_of_mem _ hin))
            · rw [splitlinesGo_cr cur a₂ rest₂ h2] at hl
              rcases List.mem_cons.1 hl with rfl | hl2
              · exact Or.inl (List.mem_reverse.1 hc)
              · have hlen : (a₂ :: rest₂).length ≤ n := by
                  simp only [List.length_cons] at hs ⊢
                  omega
                rcases ih (a₂ :: rest₂) hlen [] l hl2 c hc with hin | hin
                · simp at hin
                · exact Or.inr (List.mem_cons_of_mem _ hin)
        · rw [splitlinesGo_cons_break cur a rest hbr hcr] at hl
          rcases List.mem_cons.1 hl with rfl | hl2
          · exact Or.inl (List.mem_reverse.1 hc)
          · by_cases hr : rest = []
            · rw [if_pos hr] at hl2
              simp at hl2
            · rw [if_neg hr] at hl2
              rw [List.length_cons] at hs
              rcases ih rest (Nat.le_of_succ_le_succ hs) [] l hl2 c hc with hin | hin
              · simp at hin
              · exact Or.inr (List.mem_cons_of_mem _ hin)

/-- Lines produced by the splitter contain no line-break characters, as
long as the buffer contains none. -/
lemma splitlinesGo_nonbreak_out :
    ∀ (n : Nat) (s : Str), s.length ≤ n → ∀ (cur : Str),
      (∀ c ∈ cur, isLineBreak c = false) →
      ∀ l ∈ splitlinesGo cur s, ∀ c ∈ l, isLineBreak c = false := by
  intro n
  induction n with
  | zero =>
    intro s hs cur hcur l hl c hc
    have hnil : s = [] := List.eq_nil_of_length_eq_zero (Nat.le_zero.1 hs)
    subst hnil
    simp [splitlinesGo] at hl
    rw [hl] at hc
    exact hcur c (List.mem_reverse.1 hc)
  | succ n ih =>
    intro s hs cur hcur l hl c hc
    cases s with
    | nil =>
      simp [splitlinesGo] at hl
      rw [hl] at hc
      exact hcur c (List.mem_reverse.1 hc)
    | cons a rest =>
      by_cases hbr : isLineBreak a = false
      · rw [splitlinesGo_cons_nonbreak cur a rest hbr] at hl
        rw [List.length_cons] at hs
        refine ih rest (Nat.le_of_succ_le_succ hs) (a :: cur) ?_ l hl c hc
        intro x hx
        rcases List.mem_cons.1 hx with rfl | hx2
        · exact hbr
        · exact hcur x hx2
      · rw [Bool.not_eq_false] at hbr
        by_cases hcr : a = '\r'
        · subst hcr
          cases rest with
          | nil =>
            rw [splitlinesGo_cr_nil] at hl
            simp at hl
            rw [hl] at hc
            exact hcur c (List.mem_reverse.1 hc)
          | cons a₂ rest₂ =>
            by_cases h2 : a₂ = '\n'
            · subst h2
              rw [splitlinesGo_crlf] at hl
              rcases List.mem_cons.1 hl with rfl | hl2
              · exact hcur c (List.mem_reverse.1 hc)
              · by_cases hr2 : rest₂ = []
                · rw [if_pos hr2] at hl2
                  simp at hl2
                · rw [if_neg hr2] at hl2
                  have hlen : rest₂.length ≤ n := by
                    simp only [List.length_cons] at hs
                    omega
                  exact ih rest₂ hlen [] (by simp) l hl2 c hc
            · rw [splitlinesGo_cr cur a₂ rest₂ h2] at hl
              rcases List.mem_cons.1 hl with rfl | hl2
              · exact hcur c (List.mem_reverse.1 hc)
              · have hlen : (a₂ :: rest₂).length ≤ n := by
                  simp only [List.length_cons] at hs ⊢
                  omega
                exact ih (a₂ :: rest₂) hlen [] (by simp) l hl2 c hc
        · rw [splitlinesGo_cons_break cur a rest hbr hcr] at hl
          rcases List.mem_cons.1 hl with rfl | hl2
          · exact hcur c (List.mem_reverse.1 hc)
          · by_cases hr : rest = []
            · rw [if_pos hr] at hl2
              simp at hl2
            · rw [if_neg hr] at hl2
              rw [List.length_cons] at hs
              exact ih rest (Nat.le_of_succ_le_succ hs) [] (by simp) l hl2 c hc

lemma splitlinesPy_sub (t : Str) : ∀ l ∈ splitlinesPy t, ∀ c ∈ l, c ∈ t := by
  intro l hl c hc
  unfold splitlinesPy at hl
  by_cases ht : t = []
  · rw [if_pos ht] at hl
    simp at hl
  · rw [if_neg ht] at hl
    rcases splitlinesGo_sub t.length t le_rfl [] l hl c hc with hin | hin
    · simp at hin
    · exact hin

lemma splitlinesPy_nonbreak (t : Str) :
    ∀ l ∈ splitlinesPy t, ∀ c ∈ l, isLineBreak c = false := by
  intro l hl c hc
  unfold splitlinesPy at hl
  by_cases ht : t = []
  · rw [if_pos ht] at hl
    simp at hl
  · rw [if_neg ht] at hl
    exact splitlinesGo_nonbreak_out t.length t le_rfl [] (by simp) l hl c hc

lemma splitlinesGo_all_nonbreak :
    ∀ (s cur : Str), (∀ c ∈ s, isLineBreak c = false) →
      splitlinesGo cur s = [cur.reverse ++ s] := by
  intro s
  induction s with
  | nil => intro cur _; simp [splitlinesGo]
  | cons c rest ih =>
    intro cur hnb
    rw [splitlinesGo_cons_nonbreak cur c rest (hnb c (List.mem_cons_self _ _))]
    rw [ih (c :: cur) (fun x hx => hnb x (List.mem_cons_of_mem _ hx))]
    simp

lemma splitlinesGo_line_append :
    ∀ (x cur rest : Str), (∀ c ∈ x, isLineBreak c = false) →
      splitlinesGo cur (x ++ '\n' :: rest) =
        (cur.reverse ++ x) :: (if rest = [] then [] else splitlinesGo [] rest) := by
  intro x
  induction x with
  | nil =>
    intro cur rest _
    rw [List.nil_append,
        splitlinesGo_cons_break cur '\n' rest (by simp [isLineBreak]) (by simp)]
    simp
  | cons c x' ih =>
    intro cur rest hnb
    rw [List.cons_append,
        splitlinesGo_cons_nonbreak cur c _ (hnb c (List.mem_cons_self _ _)),
        ih (c :: cur) rest (fun y hy => hnb y (List.mem_cons_of_mem _ hy))]
    simp

lemma joinSep_cons_cons (sep x y : Str) (ys : List Str) :
    joinSep sep (x :: y :: ys) = x ++ sep ++ joinSep sep (y :: ys) := rfl

lemma joinSep_ne_nil :
    ∀ (cs : List Str) (g : Str), cs.getLast? = some g → g ≠ [] →
      joinSep ['\n'] cs ≠ [] := by
  intro cs
  induction cs with
  | nil => intro g hg _; simp at hg
  | cons x xs ih =>
    intro g hg hgne
    cases xs with
    | nil =>
      simp at hg
      rw [show joinSep ['\n'] [x] = x from rfl, hg]
      exact hgne
    | cons y ys =>
      rw [joinSep_cons_cons]
      rw [List.getLast?_cons_cons] at hg
      intro habs
      rcases List.append_eq_nil.1 habs with ⟨h1, h2⟩
      exact ih g hg hgne h2

lemma headq_append_left {α : Type} (l₁ l₂ : List α) (h : l₁ ≠ []) :
    (l₁ ++ l₂).head? = l₁.head? := by
  cases l₁ with
  | nil => exact absurd rfl h
  | cons a t => rfl

lemma joinSep_head? :
    ∀ (cs : List Str) (x : Str), cs.head? = some x → x ≠ [] →
      (joinSep ['\n'] cs).head? = x.head? := by
  intro cs x hx hxne
  cases cs with
  | nil => simp at hx
  | cons y ys =>
    simp at hx
    subst hx
    cases ys with
    | nil => rfl
    | cons z zs =>
      rw [joinSep_cons_cons, List.append_assoc]
      exact headq_append_left _ _ hxne

lemma getLastq_ne_none {α : Type} : ∀ (l : List α), l ≠ [] → ∃ g, l.getLast? = some g := by
  intro l
  induction l with
  | nil => intro h; exact absurd rfl h
  | cons a t ih =>
    intro _
    cases t with
    | nil => exact ⟨a, rfl⟩
    | cons b ts =>
      obtain ⟨g, hg⟩ := ih (by simp)
      exact ⟨g, by rw [List.getLast?_cons_cons]; exact hg⟩

lemma suffix_getLast? {α : Type} (l x : List α) (h : l <:+ x) (hne : l ≠ []) :
    x.getLast? = l.getLast? := by
  obtain ⟨t, rfl⟩ := h
  obtain ⟨g, hg⟩ := getLastq_ne_none l hne
  rw [List.getLast?_append, hg]
  rfl

lemma getLastq_append_right {α : Type} (l₁ l₂ : List α) (g : α)
    (h : l₂.getLast? = some g) : (l₁ ++ l₂).getLast? = some g := by
  rw [List.getLast?_append, h]
  rfl

lemma joinSep_getLast? :
    ∀ (cs : List Str) (g : Str), cs.getLast? = some g → g ≠ [] →
      (joinSep ['\n'] cs).getLast? = g.getLast? := by
  intro cs
  induction cs with
  | nil => intro g hg _; simp at hg
  | cons x xs ih =>
    intro g hg hgne
    cases xs with
    | nil =>
      simp at hg
      rw [show joinSep ['\n'] [x] = x from rfl, hg]
    | cons y ys =>
      rw [List.getLast?_cons_cons] at hg
      rw [joinSep_cons_cons]
      have hj := ih g hg hgne
      obtain ⟨c, hc⟩ := getLastq_ne_none g hgne
      rw [getLastq_append_right _ _ c (by rw [hj, hc]), hc]

lemma joinSep_concat_blank :
    ∀ (cs : List Str), cs ≠ [] →
      joinSep ['\n'] (cs ++ [[]]) = joinSep ['\n'] cs ++ ['\n'] := by
  intro cs
  induction cs with
  | nil => intro h; exact absurd rfl h
  | cons x xs ih =>
    intro _
    cases xs with
    | nil =>
      show (x ++ ['\n']) ++ ([] : Str) = x ++ ['\n']
      rw [List.append_nil]
    | cons y ys =>
      have ih2 := ih (by simp)
      rw [List.cons_append] at ih2
      have hls : (x :: y :: ys) ++ [[]] = x :: y :: (ys ++ [([] : Str)]) := by simp
      rw [hls, joinSep_cons_cons, ih2, joinSep_cons_cons]
      simp [List.append_assoc]

lemma splitlinesPy_joinSep :
    ∀ (cs : List Str), cs ≠ [] →
      (∀ l ∈ cs, ∀ c ∈ l, isLineBreak c = false) →
      (∀ g, cs.getLast? = some g → g ≠ []) →
      splitlinesPy (joinSep ['\n'] cs) = cs := by
  intro cs
  induction cs with
  | nil => intro h; exact absurd rfl h
  | cons x xs ih =>
    intro _ hbf hlast
    cases xs with
    | nil =>
      have hxne : x ≠ [] := hlast x (by simp)
      show splitlinesPy x = [x]
      unfold splitlinesPy
      rw [if_neg hxne, splitlinesGo_all_nonbreak x [] (hbf x (List.mem_cons_self _ _))]
      simp
    | cons y ys =>
      have hJne : joinSep ['\n'] (y :: ys) ≠ [] := by
        obtain ⟨g, hg⟩ := getLastq_ne_none (y :: ys) (by simp)
        exact joinSep_ne_nil (y :: ys) g hg
          (hlast g (by rw [List.getLast?_cons_cons]; exact hg))
      rw [joinSep_cons_cons]
      have hshape : (x ++ ['\n']) ++ joinSep ['\n'] (y :: ys) =
          x ++ '\n' :: joinSep ['\n'] (y :: ys) := by
        rw [List.append_assoc]
        rfl
      rw [hshape]
      have hne2 : x ++ '\n' :: joinSep ['\n'] (y :: ys) ≠ [] := by
        intro habs
        rcases List.append_eq_nil.1 habs with ⟨h1, h2⟩
        simp at h2
      unfold splitlinesPy
      rw [if_neg hne2,
          splitlinesGo_line_append x [] (joinSep ['\n'] (y :: ys))
            (hbf x (List.mem_cons_self _ _)),
          if_neg hJne]
      have hrec : splitlinesGo [] (joinSep ['\n'] (y :: ys)) =
          splitlinesPy (joinSep ['\n'] (y :: ys)) := by
        unfold splitlinesPy
        rw [if_neg hJne]
      rw [hrec, ih (by simp) (fun l hl => hbf l (List.mem_cons_of_mem _ hl))
            (fun g hg => hlast g (by rw [List.getLast?_cons_cons]; exact hg))]
      simp

lemma rtrim_last_not_ws (s : Str) : ∀ c, (rtrim s).getLast? = some c → isWs c = false := by
  intro c hc
  unfold rtrim at hc
  rw [List.getLast?_reverse] at hc
  exact ltrim_head_not_ws s.reverse c hc

lemma trim_last_not_ws (s : Str) : ∀ c, (trim s).getLast? = some c → isWs c = false := by
  intro c hc
  by_cases hne : trim s = []
  · rw [hne] at hc
    simp at hc
  · have hsuf : trim s <:+ rtrim s := ltrim_suffix (rtrim s)
    have h2 : (rtrim s).getLast? = some c := by
      rw [suffix_getLast? (trim s) (rtrim s) hsuf hne]
      exact hc
    exact rtrim_last_not_ws s c h2

lemma rtrim_eq_self_of_last (s : Str)
    (hl : ∀ c, s.getLast? = some c → isWs c = false) : rtrim s = s := by
  unfold rtrim
  cases hs : s.reverse with
  | nil =>
    have hnil : s = [] := by simpa using congrArg List.reverse hs
    subst hnil
    rfl
  | cons a t =>
    have ha : s.getLast? = some a := by
      rw [← List.head?_reverse, hs]
      rfl
    rw [List.dropWhile_cons_of_neg (by simp [hl a ha])]
    rw [← hs, List.reverse_reverse]

lemma ltrim_eq_self_of_head (s : Str)
    (hh : ∀ c, s.head? = some c → isWs c = false) : ltrim s = s := by
  cases s with
  | nil => rfl
  | cons a t => exact List.dropWhile_cons_of_neg (by simp [hh a rfl])

lemma trim_eq_self_of_ends (s : Str)
    (hh : ∀ c, s.head? = some c → isWs c = false)
    (hl : ∀ c, s.getLast? = some c → isWs c = false) : trim s = s := by
  show ltrim (rtrim s) = s
  rw [rtrim_eq_self_of_last s hl, ltrim_eq_self_of_head s hh]

lemma trim_append_nl (J : Str)
    (hh : ∀ c, J.head? = some c → isWs c = false)
    (hl : ∀ c, J.getLast? = some c → isWs c = false) :
    trim (J ++ ['\n']) = J := by
  show ltrim (rtrim (J ++ ['\n'])) = J
  rw [rtrim_append_ws J ['\n'] (by intro c hc; simp at hc; rw [hc]; rfl),
      rtrim_eq_self_of_last J hl, ltrim_eq_self_of_head J hh]

lemma mem_trim (s : Str) (c : Char) (h : c ∈ trim s) : c ∈ s :=
  ( rtrim_prefix s).sublist.subset ((ltrim_suffix (rtrim s)).sublist.subset h)

lemma joinSep_ends_not_ws (D : List Str)
    (hne : D ≠ []) (hfix : ∀ l ∈ D, trim l = l)
    (hhead : ∀ h, D.head? = some h → h ≠ [])
    (hlast : ∀ g, D.getLast? = some g → g ≠ []) :
    (∀ c, (joinSep ['\n'] D).head? = some c → isWs c = false) ∧
    (∀ c, (joinSep ['\n'] D).getLast? = some c → isWs c = false) := by
  cases D with
  | nil => exact absurd rfl hne
  | cons x xs =>
    have hx : (x :: xs).head? = some x := rfl
    have hxne := hhead x hx
    have hjh := joinSep_head? (x :: xs) x hx hxne
    obtain ⟨g, hg⟩ := getLastq_ne_none (x :: xs) (by simp)
    have hgne := hlast g hg
    have hjl := joinSep_getLast? (x :: xs) g hg hgne
    obtain ⟨l', hl'⟩ := List.getLast?_eq_some_iff.1 hg
    have hgmem : g ∈ x :: xs := by
      rw [hl']
      exact List.mem_append_right _ (List.mem_singleton.2 rfl)
    constructor
    · intro c hc
      rw [hjh] at hc
      have hfx : trim x = x := hfix x (List.mem_cons_self _ _)
      rw [← hfx] at hc
      exact trim_head_not_ws x c hc
    · intro c hc
      rw [hjl] at hc
      have hfg : trim g = g := hfix g hgmem
      rw [← hfg] at hc
      exact trim_last_not_ws g c hc

lemma trim_joinSep_good (D : List Str)
    (hne : D ≠ []) (hfix : ∀ l ∈ D, trim l = l)
    (hhead : ∀ h, D.head? = some h → h ≠ [])
    (hlast : ∀ g, D.getLast? = some g → g ≠ []) :
    trim (joinSep ['\n'] D) = joinSep ['\n'] D :=
  trim_eq_self_of_ends _ (joinSep_ends_not_ws D hne hfix hhead hlast).1
    (joinSep_ends_not_ws D hne hfix hhead hlast).2

/-- `cleanLines` of an input is either empty or the newline-join of a
non-empty list of stripped, break-free lines with no leading blank, no
trailing blank and no two adjacent blanks. -/
lemma cleanLines_shape (t : Str) :
    cleanLines t = [] ∨
    ∃ D : List Str, cleanLines t = joinSep ['\n'] D ∧ D ≠ [] ∧
      (∀ l ∈ D, trim l = l) ∧ (∀ l ∈ D, ∀ c ∈ l, isLineBreak c = false) ∧
      (∀ h, D.head? = some h → h ≠ []) ∧ (∀ g, D.getLast? = some g → g ≠ []) ∧
      List.Chain' (fun a b : Str => a = [] → b ≠ []) D := by
  have h0 : cleanLines t =
      trim (joinSep ['\n'] (((splitlinesPy t).map trim).foldl
        (fun acc ln =>
          if ln = [] ∧ (acc = [] ∨ acc.getLast? = some []) then acc else acc ++ [ln])
        [])) := rfl
  rw [dropBlank_foldl, List.nil_append] at h0
  have hd : dropB (decide (([] : List Str) = [] ∨ ([] : List Str).getLast? = some []))
      ((splitlinesPy t).map trim) = dropB true ((splitlinesPy t).map trim) := by
    rw [show (decide (([] : List Str) = [] ∨ ([] : List Str).getLast? = some [])) = true from
      by decide]
  rw [hd] at h0
  by_cases hCnil : dropB true ((splitlinesPy t).map trim) = []
  · left
    rw [h0, hCnil]
    rfl
  · right
    have hCel : ∀ l ∈ dropB true ((splitlinesPy t).map trim),
        ∃ l₀ ∈ splitlinesPy t, l = trim l₀ := by
      intro l hl
      have hm := dropB_subset _ true l hl
      obtain ⟨l₀, hl₀, hEq⟩ := List.mem_map.1 hm
      exact ⟨l₀, hl₀, hEq.symm⟩
    have hfix : ∀ l ∈ dropB true ((splitlinesPy t).map trim), trim l = l := by
      intro l hl
      obtain ⟨l₀, _, rfl⟩ := hCel l hl
      exact trim_trim l₀
    have hbf : ∀ l ∈ dropB true ((splitlinesPy t).map trim),
        ∀ c ∈ l, isLineBreak c = false := by
      intro l hl c hc
      obtain ⟨l₀, hl₀, rfl⟩ := hCel l hl
      exact splitlinesPy_nonbreak t l₀ hl₀ c (mem_trim l₀ c hc)
    have hhead : ∀ h, (dropB true ((splitlinesPy t).map trim)).head? = some h → h ≠ [] :=
      (dropB_head_chain _ true).1 rfl
    have hchain := (dropB_head_chain ((splitlinesPy t).map trim) true).2
    obtain ⟨g, hg⟩ := getLastq_ne_none _ hCnil
    by_cases hgnil : g = []
    · subst hgnil
      obtain ⟨C₀, hC⟩ := List.getLast?_eq_some_iff.1 hg
      have hC₀ne : C₀ ≠ [] := by
        intro habs
        rw [habs, List.nil_append] at hC
        exact hhead [] (by rw [hC]; rfl) rfl
      have hsub : ∀ l ∈ C₀, l ∈ dropB true ((splitlinesPy t).map trim) := by
        intro l hl
        rw [hC]
        exact List.mem_append_left _ hl
      have hchainC := hchain
      rw [hC] at hchainC
      have hch := List.chain'_append.1 hchainC
      have hlast₀ : ∀ g', C₀.getLast? = some g' → g' ≠ [] := by
        intro g' hg' habs
        exact hch.2.2 g' hg' [] rfl habs rfl
      have hheadC₀ : ∀ h, C₀.head? = some h → h ≠ [] := by
        intro h hh
        apply hhead h
        rw [hC, headq_append_left C₀ [[]] hC₀ne]
        exact hh
      have hfix₀ : ∀ l ∈ C₀, trim l = l := fun l hl => hfix l (hsub l hl)
      refine ⟨C₀, ?_, hC₀ne, hfix₀, fun l hl => hbf l (hsub l hl), hheadC₀, hlast₀, hch.1⟩
      rw [h0, hC, joinSep_concat_blank C₀ hC₀ne]
      exact trim_append_nl _ (joinSep_ends_not_ws C₀ hC₀ne hfix₀ hheadC₀ hlast₀).1
        (joinSep_ends_not_ws C₀ hC₀ne hfix₀ hheadC₀ hlast₀).2
    · have hlastfn : ∀ g', (dropB true ((splitlinesPy t).map trim)).getLast? = some g' →
          g' ≠ [] := by
        intro g' hg'
        rw [hg] at hg'
        injection hg' with h
        rw [← h]
        exact hgnil
      refine ⟨dropB true ((splitlinesPy t).map trim), ?_, hCnil, hfix, hbf, hhead,
        hlastfn, hchain⟩
      rw [h0]
      exact trim_joinSep_good _ hCnil hfix hhead hlastfn

/-- `cleanLines` is the identity on the newline-join of a good line list. -/
lemma cleanLines_of_good (D : List Str)
    (hne : D ≠ []) (hfix : ∀ l ∈ D, trim l = l)
    (hbf : ∀ l ∈ D, ∀ c ∈ l, isLineBreak c = false)
    (hhead : ∀ h, D.head? = some h → h ≠ [])
    (hlast : ∀ g, D.getLast? = some g → g ≠ [])
    (hchain : List.Chain' (fun a b : Str => a = [] → b ≠ []) D) :
    cleanLines (joinSep ['\n'] D) = joinSep ['\n'] D := by
  have h0 : cleanLines (joinSep ['\n'] D) =
      trim (joinSep ['\n'] (((splitlinesPy (joinSep ['\n'] D)).map trim).foldl
        (fun acc ln =>
          if ln = [] ∧ (acc = [] ∨ acc.getLast? = some []) then acc else acc ++ [ln])
        [])) := rfl
  rw [dropBlank_foldl, List.nil_append] at h0
  have hd : dropB (decide (([] : List Str) = [] ∨ ([] : List Str).getLast? = some []))
      ((splitlinesPy (joinSep ['\n'] D)).map trim) =
      dropB true ((splitlinesPy (joinSep ['\n'] D)).map trim) := by
    rw [show (decide (([] : List Str) = [] ∨ ([] : List Str).getLast? = some [])) = true from
      by decide]
  rw [hd, splitlinesPy_joinSep D hne hbf hlast] at h0
  have hmapfix : D.map trim = D := by
    have h1 : D.map trim = D.map id := List.map_congr_left (fun a ha => by rw [hfix a ha]; rfl)
    rw [h1, List.map_id]
  rw [hmapfix, dropB_fixpoint D true hchain (fun _ => hhead)] at h0
  rw [h0]
  exact trim_joinSep_good D hne hfix hhead hlast

/-- The line cleanup of `html_to_text` is idempotent. -/
lemma cleanLines_fix (t : Str) : cleanLines (cleanLines t) = cleanLines t := by
  rcases cleanLines_shape t with h | ⟨D, hEq, hne, hfix, hbf, hhead, hlast, hchain⟩
  · rw [h]
    rfl
  · rw [hEq]
    exact cleanLines_of_good D hne hfix hbf hhead hlast hchain

lemma mem_joinSep : ∀ (cs : List Str) (c : Char), c ∈ joinSep ['\n'] cs →
    c = '\n' ∨ ∃ l ∈ cs, c ∈ l := by
  intro cs
  induction cs with
  | nil => intro c hc; simp [joinSep] at hc
  | cons x xs ih =>
    intro c hc
    cases xs with
    | nil =>
      right
      exact ⟨x, List.mem_cons_self _ _, hc⟩
    | cons y ys =>
      rw [joinSep_cons_cons] at hc
      rcases List.mem_append.1 hc with h1 | h2
      · rcases List.mem_append.1 h1 with hx | hnl
        · right
          exact ⟨x, List.mem_cons_self _ _, hx⟩
        · left
          simpa using hnl
      · rcases ih c h2 with h | ⟨l, hl, hcl⟩
        · left
          exact h
        · right
          exact ⟨l, List.mem_cons_of_mem _ hl, hcl⟩

/-- Every character of `cleanLines t` comes from `t` or is a newline. -/
lemma cleanLines_chars (t : Str) : ∀ c ∈ cleanLines t, c ∈ t ∨ c = '\n' := by
  intro c hc
  have h0 : cleanLines t =
      trim (joinSep ['\n'] (((splitlinesPy t).map trim).foldl
        (fun acc ln =>
          if ln = [] ∧ (acc = [] ∨ acc.getLast? = some []) then acc else acc ++ [ln])
        [])) := rfl
  rw [h0, dropBlank_foldl, List.nil_append] at hc
  have hc2 := mem_trim _ c hc
  rcases mem_joinSep _ c hc2 with h | ⟨l, hl, hcl⟩
  · right
    exact h
  · left
    have hm := dropB_subset _ _ l hl
    obtain ⟨l₀, hl₀, hEq⟩ := List.mem_map.1 hm
    rw [← hEq] at hcl
    exact splitlinesPy_sub t l₀ hl₀ c (mem_trim l₀ c hcl)

/-- C8: for every already-clean input string (no `<` markup, no `&`
entities, no backslash escape sequences), the normalization
`html_to_text` is idempotent: applying it twice gives the same result as
applying it once. -/
theorem c8_normalize_idempotent (x : Str) (hx : cleanText x) :
    html_to_text (html_to_text x) = html_to_text x := by
  by_cases hne : x = []
  · subst hne
    rfl
  · have h1 : html_to_text x = cleanLines x := html_to_text_of_clean x hx hne
    rw [h1]
    by_cases hr : cleanLines x = []
    · rw [hr]
      rfl
    · have hclean : cleanText (cleanLines x) := by
        intro c hc
        rcases cleanLines_chars x c hc with hin | hnl
        · exact hx c hin
        · subst hnl
          exact ⟨by decide, by decide, by decide⟩
      rw [html_to_text_of_clean (cleanLines x) hclean hr]
      exact cleanLines_fix x

theorem c8_normalize_idempotent_witness :
    cleanText (strOf "  a\n\n\nb  \nc") ∧
      html_to_text (html_to_text (strOf "  a\n\n\nb  \nc")) =
        html_to_text (strOf "  a\n\n\nb  \nc") :=
  ⟨by unfold cleanText; decide,
   c8_normalize_idempotent (strOf "  a\n\n\nb  \nc") (by unfold cleanText; decide)⟩
